import Mathlib

/-!
Verification development for the pi-subagents execution engine.

Shallow embedding of the engine's core components, translated from the
TypeScript sources:

* `src/settings.ts`   — behavior resolution, template resolution, chain
  instruction injection, parallel behavior namespacing, output aggregation.
* `src/execution.ts`  — the worker process runner `runSync`: event stream
  processing (`processLine`), bounded rings, hidden-failure detection.
* `src/chain-execution.ts` — the chain orchestrator `executeChain`.
* `src/jsonl-writer.ts` — the backpressured JSONL event writer.

Components whose implementation is not part of the sources (only their
tests and call sites are) are modelled from the specification and carry a
doc comment starting with the words: Modelled from the spec.

Effectful aspects (child process spawning, filesystem writes, timers) are
modelled by explicit state: an oracle function supplies the result each
spawned worker would produce, and the model records which workers were
spawned, whether the chain directory was removed, and so on.  Wall-clock
times (durationMs, endMs) are threaded as plain data and never interpreted.
-/

/-! ## Basic data model (types.ts / pi-ai message shapes, fields used by the engine) -/

/-- Usage totals accumulated by the runner (`result.usage` in execution.ts).
Costs are modelled in integral units; the engine only adds them. -/
structure Usage where
  input : Nat
  output : Nat
  cacheRead : Nat
  cacheWrite : Nat
  cost : Nat
  turns : Nat
deriving DecidableEq

/-- The all-zero usage record created at task start in `runSync`. -/
def Usage.zero : Usage := ⟨0, 0, 0, 0, 0, 0⟩

/-- Per-message usage as read from a `message_end` event (`u.input || 0` etc.;
absent fields are modelled as 0, matching the JS `|| 0` coercion). -/
structure MsgUsage where
  input : Nat
  output : Nat
  cacheRead : Nat
  cacheWrite : Nat
  costTotal : Nat
deriving DecidableEq

/-- The fields of a protocol message that `processLine` reads. -/
structure MsgModel where
  role : String
  text : String
  errorMessage : Option String
  usage : Option MsgUsage
  modelName : Option String
  isError : Bool
  toolName : Option String
deriving DecidableEq

/-- An entry of the bounded recent-tools ring (`progress.recentTools`). -/
structure RecentTool where
  tool : String
  args : String
  endMs : Nat
deriving DecidableEq

/-- The per-task result record (`SingleResult`), restricted to the fields the
claims are about.  `exitCode` is an `Int` because the orchestrator uses the
synthetic value `-1` for fail-fast skips. -/
structure SingleRes where
  agent : String
  task : String
  exitCode : Int
  messages : List MsgModel
  usage : Usage
  error : Option String
  modelName : Option String
deriving DecidableEq

/-- Agent registry entry (`AgentConfig`), restricted to the fields used by
behavior resolution. -/
structure AgentConfig where
  name : String
  output : Option String
  defaultReads : Option (List String)
  defaultProgress : Option Bool
deriving DecidableEq

/-- The registry lookup `agents.find((a) => a.name === name)`. -/
def findAgent (agents : List AgentConfig) (name : String) : Option AgentConfig :=
  agents.find? (fun a => a.name == name)

/-! ## settings.ts — behavior resolution -/

/-- Resolved per-step behavior (`ResolvedStepBehavior`).  The TS literal
`false` (disabled) is modelled as `none`. -/
structure ResolvedStepBehavior where
  output : Option String
  reads : Option (List String)
  progress : Bool
deriving DecidableEq

/-- Inline step overrides (`StepOverrides`).  The outer `Option` is TS
`undefined` (no override); `some none` is an explicit `false`. -/
structure StepOverrides where
  output : Option (Option String)
  reads : Option (Option (List String))
  progress : Option Bool
deriving DecidableEq

/-- Translation of `resolveStepBehavior` (settings.ts): per field,
step override (checked against `undefined`) else agent frontmatter else
disabled. -/
def resolveStepBehavior (agentConfig : AgentConfig) (stepOverrides : StepOverrides) :
    ResolvedStepBehavior :=
  { output := match stepOverrides.output with
      | some v => v
      | none => agentConfig.output
    reads := match stepOverrides.reads with
      | some v => v
      | none => agentConfig.defaultReads
    progress := match stepOverrides.progress with
      | some v => v
      | none => agentConfig.defaultProgress.getD false }

/-- POSIX `path.isAbsolute`: the path begins with a slash. -/
def isAbsolutePath (p : String) : Bool :=
  match p.data with
  | '/' :: _ => true
  | _ => false

/-- Translation of `resolveChainPath` (settings.ts): absolute paths pass
through, relative paths get the chain directory prepended. -/
def resolveChainPath (filePath chainDir : String) : String :=
  if isAbsolutePath filePath then filePath else chainDir ++ "/" ++ filePath

/-- The whitespace class of the JS regexes and of `String.prototype.trim`
(ASCII subset; the inputs of interest contain no exotic unicode spaces). -/
def isJsWS (c : Char) : Bool :=
  c = ' ' ∨ c = '\t' ∨ c = '\n' ∨ c = '\r' ∨ c = '\x0b' ∨ c = '\x0c'

/-- JS `String.prototype.trim` on a character list. -/
def jsTrimL (cs : List Char) : List Char :=
  ((cs.dropWhile isJsWS).reverse.dropWhile isJsWS).reverse

/-- JS `String.prototype.trim`. -/
def jsTrim (s : String) : String := String.mk (jsTrimL s.data)

/-- Translation of `buildChainInstructions` (settings.ts).  The JS truthiness
checks are made explicit: a `previousSummary` or `behavior.output` that is an
empty string counts as absent. -/
def buildChainInstructions (behavior : ResolvedStepBehavior) (chainDir : String)
    (isFirstProgressAgent : Bool) (previousSummary : Option String) : String :=
  let summaryLines : List String :=
    match previousSummary with
    | some s => if s ≠ "" ∧ jsTrim s ≠ "" then ["Previous step summary:\n\n" ++ jsTrim s] else []
    | none => []
  let readLines : List String :=
    match behavior.reads with
    | some fs =>
        if fs.length > 0 then
          ["Read these files: " ++ String.intercalate ", " (fs.map (resolveChainPath · chainDir))]
        else []
    | none => []
  let outputLines : List String :=
    match behavior.output with
    | some o => if o ≠ "" then ["Write your output to: " ++ resolveChainPath o chainDir] else []
    | none => []
  let progressLines : List String :=
    if behavior.progress then
      let progressPath := chainDir ++ "/progress.md"
      if isFirstProgressAgent then
        ["Create and maintain: " ++ progressPath,
         "Format: Status, Tasks (checkboxes), Files Changed, Notes"]
      else
        ["Read and update: " ++ progressPath]
    else []
  let instructions := summaryLines ++ readLines ++ outputLines ++ progressLines
  if instructions = [] then ""
  else "\n\n---\n**Chain Instructions:**\n" ++
    String.intercalate "\n" (instructions.map (fun i => "- " ++ i))

/-! ## settings.ts — chain step types and template resolution -/

/-- A sequential step (`SequentialStep`): the behavior-override fields use
the same undefined/false/value encoding as `StepOverrides`. -/
structure SequentialStep where
  agent : String
  task : Option String
  cwd : Option String
  output : Option (Option String)
  reads : Option (Option (List String))
  progress : Option Bool
deriving DecidableEq

/-- A parallel task item has the same shape as a sequential step. -/
abbrev ParallelTaskItem := SequentialStep

/-- A chain step: sequential, or a parallel group (`ParallelStep`). -/
inductive ChainStep where
  | seq (step : SequentialStep)
  | par (parallel : List ParallelTaskItem) (concurrency : Option Nat) (failFast : Option Bool)
deriving DecidableEq

/-- Resolved templates: a string per sequential step, a string list per
parallel group (`ResolvedTemplates`). -/
inductive Tmpl where
  | s (t : String)
  | p (ts : List String)
deriving DecidableEq

/-- Default template for a parallel task: inline task if truthy, else the
literal variable for the previous output. -/
def parallelTaskTemplate (t : ParallelTaskItem) : String :=
  match t.task with
  | some s => if s ≠ "" then s else "{previous}"
  | none => "{previous}"

/-- Helper for `resolveChainTemplatesV2`, threading the step index. -/
def resolveTemplatesAux : List ChainStep → Nat → List Tmpl
  | [], _ => []
  | step :: rest, i =>
    (match step with
     | .par tasks _ _ => Tmpl.p (tasks.map parallelTaskTemplate)
     | .seq sq =>
        Tmpl.s (match sq.task with
          | some s => if s ≠ "" then s else (if i = 0 then "{task}" else "{previous}")
          | none => if i = 0 then "{task}" else "{previous}")) ::
    resolveTemplatesAux rest (i + 1)

/-- Translation of `resolveChainTemplatesV2` (settings.ts): inline task if
present (truthy), else the first sequential step defaults to the task
variable and every other step to the previous-output variable; every
parallel task defaults to the previous-output variable.  The saved-settings
parameter of the source is unused by the source body and omitted. -/
def resolveChainTemplatesV2 (steps : List ChainStep) : List Tmpl :=
  resolveTemplatesAux steps 0

/-! ## settings.ts — parallel behavior namespacing -/

/-- Helper for `resolveParallelBehaviors`, threading the task index. -/
def resolveParallelBehaviorsAux :
    List ParallelTaskItem → List AgentConfig → Nat → Nat →
    Except String (List ResolvedStepBehavior)
  | [], _, _, _ => .ok []
  | t :: rest, agentConfigs, stepIndex, taskIndex =>
    match findAgent agentConfigs t.agent with
    | none => .error ("Unknown agent: " ++ t.agent)
    | some config =>
      let subdir := "parallel-" ++ toString stepIndex ++ "/" ++ toString taskIndex ++ "-" ++ t.agent
      let output : Option String :=
        match t.output with
        | some v =>
          match v with
          | none => none
          | some p => if isAbsolutePath p then some p else some (subdir ++ "/" ++ p)
        | none =>
          match config.output with
          | some p => if p ≠ "" then some (subdir ++ "/" ++ p) else none
          | none => none
      let reads : Option (List String) :=
        match t.reads with
        | some v => v
        | none => config.defaultReads
      let progress : Bool :=
        match t.progress with
        | some v => v
        | none => config.defaultProgress.getD false
      match resolveParallelBehaviorsAux rest agentConfigs stepIndex (taskIndex + 1) with
      | .error e => .error e
      | .ok bs => .ok ({ output := output, reads := reads, progress := progress } :: bs)

/-- Translation of `resolveParallelBehaviors` (settings.ts): per task,
override beats agent default beats disabled; relative output paths (override
or agent default) are namespaced under the task subdirectory, absolute
override paths pass through; throws (modelled as `Except.error`) on an
unknown agent reference. -/
def resolveParallelBehaviors (tasks : List ParallelTaskItem)
    (agentConfigs : List AgentConfig) (stepIndex : Nat) :
    Except String (List ResolvedStepBehavior) :=
  resolveParallelBehaviorsAux tasks agentConfigs stepIndex 0

/-! ## settings.ts — parallel output aggregation -/

/-- Simplified per-task record consumed by output aggregation
(`ParallelTaskResult`). -/
structure ParallelTaskResult where
  agent : String
  taskIndex : Nat
  output : String
  exitCode : Int
  error : Option String
deriving DecidableEq

/-- JS `Array.prototype.join`: elements joined by the separator. -/
def joinSep (sep : String) : List String → String
  | [] => ""
  | [x] => x
  | x :: rest => x ++ sep ++ joinSep sep rest

/-- Sections of the settings.ts aggregation, one per task in order. -/
def settingsAggSections : List ParallelTaskResult → Nat → List String
  | [], _ => []
  | r :: rest, i =>
    ("=== Parallel Task " ++ toString (i + 1) ++ " (" ++ r.agent ++ ") ===" ++ "\n" ++ r.output) ::
    settingsAggSections rest (i + 1)

/-- Translation of `aggregateParallelOutputs` (settings.ts): each task's
output under a numbered header, in original order, joined by blank lines. -/
def aggregateParallelOutputs (results : List ParallelTaskResult) : String :=
  joinSep "\n\n" (settingsAggSections results 0)

/-! ## Modelled collaborators (implementation not under src/, see doc comments) -/

/-- Modelled from the spec: utils.ts `getFinalOutput` is not among the
sources (only its callers are).  The spec says a task's final output is the
running scalar of the last assistant message text ("appends the message's
text ... to a running final-output scalar", settings prose "previousOutput
becomes the task's final output text"); execution.ts mirrors this with
`finalOutputText = text` on each assistant message carrying text. -/
def getFinalOutput (messages : List MsgModel) : String :=
  messages.foldl (fun acc m => if m.role = "assistant" ∧ m.text ≠ "" then m.text else acc) ""

/-- Modelled from the spec: types.ts `MAX_CONCURRENCY` (the default parallel
concurrency cap) is not among the sources; parallel-utils.test.ts pins the
runner's cap at 4. -/
def MAX_CONCURRENCY : Nat := 4

/-- Modelled from the spec: parallel-utils.ts `aggregateParallelOutputs`
(the async runner's aggregation with failure markers) is not among the
sources, only its tests.  Per Scenario E a failed task's section carries a
failure marker naming its error; the marker format follows the expectations
in parallel-utils.test.ts (warning sign, exit code, optional error text, and
an empty-output marker for blank output). -/
def runnerAggSection (r : ParallelTaskResult) (n : Nat) : String :=
  let header := "=== Parallel Task " ++ toString n ++ " (" ++ r.agent ++ ") ==="
  let failMarker :=
    if r.exitCode ≠ 0 then
      "⚠️ FAILED (exit code " ++ toString r.exitCode ++ ")" ++
        (match r.error with | some e => ": " ++ e | none => "") ++ "\n"
    else ""
  let body := if jsTrim r.output = "" then "⚠️ EMPTY OUTPUT" else r.output
  header ++ "\n" ++ failMarker ++ body

/-- Sections of the runner aggregation, one per task in original order. -/
def runnerAggSections : List ParallelTaskResult → Nat → List String
  | [], _ => []
  | r :: rest, i => runnerAggSection r (i + 1) :: runnerAggSections rest (i + 1)

/-- Modelled from the spec: the async runner's output aggregation (see
`runnerAggSection`). -/
def runnerAggregateOutputs (results : List ParallelTaskResult) : String :=
  joinSep "\n\n" (runnerAggSections results 0)

/-! ## execution.ts — line parsing helpers -/

/-- Case-insensitive literal match, returning the remaining input
(the literal is given in lowercase). -/
def matchLit : List Char → List Char → Option (List Char)
  | [], cs => some cs
  | _ :: _, [] => none
  | l :: ls, c :: cs => if c.toLower = l then matchLit ls cs else none

/-- Greedy whitespace skip (regex star over the whitespace class). -/
def skipWS : List Char → List Char
  | [] => []
  | c :: cs => if isJsWS c then skipWS cs else c :: cs

/-- Parse one or more leading decimal digits. -/
def takeDigits (cs : List Char) : Option Nat :=
  let ds := cs.takeWhile (fun c => c.isDigit)
  if ds = [] then none
  else some (ds.foldl (fun acc c => acc * 10 + (c.toNat - 48)) 0)

/-- One anchored attempt of the execution.ts exit-code regex
(exit, optional ed, optional with, optional code or status, optional colon,
a digit group), starting at the head of the input.  The regex has no
backtracking-relevant alternatives: each optional piece, when present in the
input, can only be consumed (skipping it leaves a character no later regex
piece accepts), so the greedy reading below is exact. -/
def matchExitAt (cs : List Char) : Option Nat := do
  let cs ← matchLit ['e', 'x', 'i', 't'] cs
  let cs := (matchLit ['e', 'd'] cs).getD cs
  let cs := skipWS cs
  let cs := match matchLit ['w', 'i', 't', 'h'] cs with
    | some r => skipWS r
    | none => cs
  let cs := match matchLit ['c', 'o', 'd', 'e'] cs with
    | some r => r
    | none => match matchLit ['s', 't', 'a', 't', 'u', 's'] cs with
      | some r => r
      | none => cs
  let cs := skipWS cs
  let cs := match cs with
    | c :: r => if c = ':' ∨ isJsWS c then r else c :: r
    | [] => []
  let cs := skipWS cs
  takeDigits cs

/-- Leftmost-match scan for `matchExitAt`. -/
def scanExit : List Char → Option Nat
  | [] => none
  | c :: cs =>
    match matchExitAt (c :: cs) with
    | some n => some n
    | none => scanExit cs

/-- Translation of `parseExitCode` (execution.ts): first match of the
exit-code pattern anywhere in the text; `undefined` on no text or no
match. -/
def parseExitCode (text : Option String) : Option Nat :=
  match text with
  | none => none
  | some s => if s = "" then none else scanExit s.data

/-- Newline split on a character list (the segments of `split("\n")`). -/
def splitOnNl : List Char → List (List Char)
  | [] => [[]]
  | c :: rest =>
    match splitOnNl rest with
    | [] => [[c]]
    | seg :: segs => if c = '\n' then [] :: seg :: segs else (c :: seg) :: segs

/-- Translation of `tailLines` (execution.ts): restrict to the last
`maxChars` characters, then keep the last `maxLines` non-empty trimmed
line segments, in order.  The source's backward scan collects trimmed
segments from the end and stops once `maxLines` are found, which is exactly
the last `maxLines` non-blank members of the newline split. -/
def tailLines (text : String) (maxLines : Nat) (maxChars : Nat := 20000) : List String :=
  if text = "" then []
  else
    let s := if text.data.length > maxChars then text.data.drop (text.data.length - maxChars)
             else text.data
    let segs := (splitOnNl s).map (fun seg => String.mk (jsTrimL seg))
    let nonEmpty := segs.filter (fun seg => seg ≠ "")
    nonEmpty.drop (nonEmpty.length - maxLines)

/-! ## execution.ts — event stream processing -/

/-- A protocol line as `processLine` parses it: the discriminator plus the
fields the handler reads.  `malformed` stands for any line that fails JSON
parsing or carries an unhandled discriminator (silently skipped). -/
inductive Event where
  | toolExecutionStart (toolName : Option String) (argsPreview : String)
  | toolExecutionEnd (now : Nat)
  | messageEnd (message : MsgModel)
  | toolResultEnd (message : MsgModel) (evtToolName : Option String)
  | malformed
deriving DecidableEq

/-- The last-tool-error slot recorded by `processLine`. -/
structure ToolError where
  toolName : String
  exitCode : Nat
  details : Option String
deriving DecidableEq

/-- The mutable state of one `runSync` invocation while events stream in:
the progress record's bounded rings and counters, the accumulated result
fields, and the last-tool-error slot. -/
structure RunState where
  recentTools : List RecentTool
  recentOutput : List String
  toolCount : Nat
  currentTool : Option String
  currentToolArgs : Option String
  tokens : Nat
  messages : List MsgModel
  usage : Usage
  finalOutputText : String
  error : Option String
  modelName : Option String
  lastToolError : Option ToolError
deriving DecidableEq

/-- The state at task start (`result` and `progress` initialisation). -/
def RunState.init : RunState :=
  { recentTools := [], recentOutput := [], toolCount := 0, currentTool := none
    currentToolArgs := none, tokens := 0, messages := [], usage := Usage.zero
    finalOutputText := "", error := none, modelName := none, lastToolError := none }

/-- Message retention cap (`MAX_STORED_MESSAGES`). -/
def MAX_STORED_MESSAGES : Nat := 200

/-- Translation of `pushMessage` (execution.ts): append, then drop the
oldest beyond the cap. -/
def pushMessage (msgs : List MsgModel) (m : MsgModel) : List MsgModel :=
  let msgs := msgs ++ [m]
  if msgs.length > MAX_STORED_MESSAGES then
    msgs.drop (msgs.length - MAX_STORED_MESSAGES)
  else msgs

/-- The recent-output ring cap maintenance (the in-place splice keeping the
last 50 entries). -/
def capRecentOutput (l : List String) : List String :=
  if l.length > 50 then l.drop (l.length - 50) else l

/-- JS string-or: the left operand unless it is empty/absent. -/
def jsOrStr (a : Option String) (b : String) : String :=
  match a with
  | some s => if s ≠ "" then s else b
  | none => b

/-- Translation of the `tool_result_end` tool-name fallback chain
`msg.toolName || evt.toolName || "tool"`. -/
def toolResultName (msgToolName evtToolName : Option String) : String :=
  jsOrStr msgToolName (jsOrStr evtToolName "tool")

/-- Handler for a `tool_execution_start` event (processLine). -/
def handleToolStart (st : RunState) (toolName : Option String) (argsPreview : String) : RunState :=
  { st with toolCount := st.toolCount + 1, currentTool := toolName
            currentToolArgs := some argsPreview }

/-- Handler for a `tool_execution_end` event (processLine): the finished
tool moves to the front of the recent-tools ring, evicting the oldest entry
beyond five. -/
def handleToolEnd (st : RunState) (now : Nat) : RunState :=
  match st.currentTool with
  | some tool =>
    let ring := ({ tool := tool, args := st.currentToolArgs.getD "", endMs := now } : RecentTool)
      :: st.recentTools
    { st with recentTools := if ring.length > 5 then ring.dropLast else ring
              currentTool := none, currentToolArgs := none }
  | none => { st with currentTool := none, currentToolArgs := none }

/-- Handler for a `message_end` event (processLine): assistant messages are
retained (bounded), usage and turn counts accumulate, the model name is
recorded once, an error message is recorded, and message text updates the
final output scalar and the recent-output ring; non-assistant messages only
contribute their error message. -/
def handleMessageEnd (st : RunState) (msg : MsgModel) : RunState :=
  if msg.role = "assistant" then
    let usage : Usage :=
      match msg.usage with
      | some u =>
        { input := st.usage.input + u.input, output := st.usage.output + u.output
          cacheRead := st.usage.cacheRead + u.cacheRead
          cacheWrite := st.usage.cacheWrite + u.cacheWrite
          cost := st.usage.cost + u.costTotal, turns := st.usage.turns + 1 }
      | none => { st.usage with turns := st.usage.turns + 1 }
    { st with
      messages := pushMessage st.messages msg
      usage := usage
      tokens := match msg.usage with
        | some _ => usage.input + usage.output
        | none => st.tokens
      modelName := match st.modelName, msg.modelName with
        | none, some m => some m
        | _, _ => st.modelName
      error := match msg.errorMessage with
        | some em => some em
        | none => st.error
      finalOutputText := if msg.text ≠ "" then msg.text else st.finalOutputText
      recentOutput :=
        if msg.text ≠ "" then capRecentOutput (st.recentOutput ++ tailLines msg.text 10)
        else st.recentOutput }
  else
    { st with error := match msg.errorMessage with
        | some em => some em
        | none => st.error }

/-- Handler for a `tool_result_end` event (processLine): the tool output
tail joins the recent-output ring; an error-marked result, or a bash result
whose output text reports a non-zero exit, fills the last-tool-error slot
(and the message is retained); any other tool result clears the slot. -/
def handleToolResult (st : RunState) (msg : MsgModel) (evtToolName : Option String) : RunState :=
  let toolName := toolResultName msg.toolName evtToolName
  let toolText := msg.text
  let newOutput :=
    if toolText ≠ "" then capRecentOutput (st.recentOutput ++ tailLines toolText 10)
    else st.recentOutput
  let exitCode := if toolName = "bash" then parseExitCode (some toolText) else none
  if msg.isError ∨ (toolName = "bash" ∧ exitCode.isSome ∧ exitCode ≠ some 0) then
    let te : ToolError :=
      { toolName := toolName, exitCode := exitCode.getD 1
        details := if toolText ≠ "" then some (toolText.take 200) else none }
    { st with recentOutput := newOutput, lastToolError := some te
              messages := pushMessage st.messages msg }
  else
    { st with recentOutput := newOutput, lastToolError := none }

/-- Translation of the body of `processLine` (execution.ts) on one parsed
event.  Malformed lines are skipped; progress emission/throttling has no
bearing on the recorded state and is not modelled. -/
def processEvent (st : RunState) (e : Event) : RunState :=
  match e with
  | .malformed => st
  | .toolExecutionStart toolName argsPreview => handleToolStart st toolName argsPreview
  | .toolExecutionEnd now => handleToolEnd st now
  | .messageEnd msg => handleMessageEnd st msg
  | .toolResultEnd msg evtToolName => handleToolResult st msg evtToolName

/-- Processing a whole event stream in order. -/
def processEvents (events : List Event) : RunState :=
  events.foldl processEvent RunState.init

/-! ## execution.ts — runSync -/

/-- What the environment does for one spawned worker: the parsed protocol
lines it emits on stdout, its stderr text, and its reported exit code. -/
structure ProcTrace where
  events : List Event
  stderr : String
  exitCode : Int
deriving DecidableEq

/-- The early result `runSync` returns when the agent is not in the
registry (it resolves normally with this value; nothing is spawned). -/
def unknownAgentResult (agentName task : String) : SingleRes :=
  { agent := agentName, task := task, exitCode := 1, messages := []
    usage := Usage.zero, error := some ("Unknown agent: " ++ agentName)
    modelName := none }

/-- The error text of the hidden-failure override in `runSync`. -/
def toolErrorMessage (e : ToolError) : String :=
  match e.details with
  | some d => e.toolName ++ " failed (exit " ++ toString e.exitCode ++ "): " ++ d
  | none => e.toolName ++ " failed with exit code " ++ toString e.exitCode

/-- Translation of `runSync` (execution.ts) restricted to its result value:
unknown agents resolve early; otherwise the event stream updates the run
state, stderr is attached on a non-zero exit when no error is recorded, and
a zero exit with a pending last-tool-error and no recorded error is promoted
to a failure carrying that error's details.  Artifact/truncation/session
bookkeeping does not alter the claimed fields and is not modelled. -/
def runSync (agents : List AgentConfig) (agentName task : String)
    (trace : ProcTrace) : SingleRes :=
  match findAgent agents agentName with
  | none => unknownAgentResult agentName task
  | some _ =>
    let st := processEvents trace.events
    let error :=
      if trace.exitCode ≠ 0 ∧ jsTrim trace.stderr ≠ "" ∧ st.error = none then
        some (jsTrim trace.stderr)
      else st.error
    let base : SingleRes :=
      { agent := agentName, task := task, exitCode := trace.exitCode
        messages := st.messages, usage := st.usage, error := error
        modelName := st.modelName }
    if trace.exitCode = 0 ∧ error = none then
      match st.lastToolError with
      | some e => { base with exitCode := (e.exitCode : Int), error := some (toolErrorMessage e) }
      | none => base
    else base

/-! ## jsonl-writer.ts — backpressured event writer -/

/-- Observable effects of one writer: lines handed to the sink, times the
sink was ended, and times the upstream source was paused/resumed. -/
structure JWEffects where
  writes : List String
  endCount : Nat
  pauses : Nat
  resumes : Nat
deriving DecidableEq

/-- The closure state of `createJsonlWriter`: whether a live stream is held
(`stream` not undefined), the `closed` and `backpressured` flags, plus the
observable effects.  A writer built with no file path (or whose stream
creation failed) starts with `hasStream := false` and every operation is a
no-op on it, matching the no-op object the source returns. -/
structure JWState where
  hasStream : Bool
  closed : Bool
  backpressured : Bool
  eff : JWEffects
deriving DecidableEq

/-- Fresh effects record. -/
def JWEffects.zero : JWEffects := ⟨[], 0, 0, 0⟩

/-- Writer created with a file path and a working stream. -/
def JWState.withPath : JWState :=
  { hasStream := true, closed := false, backpressured := false, eff := JWEffects.zero }

/-- Writer created with no destination path (`filePath` undefined). -/
def JWState.noPath : JWState :=
  { hasStream := false, closed := false, backpressured := false, eff := JWEffects.zero }

/-- One external interaction with the writer: a `writeLine` call (with the
boolean the sink's `write` returns), a sink drain event, or a `close`
call. -/
inductive JWOp where
  | write (line : String) (ok : Bool)
  | drain
  | close
deriving DecidableEq

/-- Translation of the writer returned by `createJsonlWriter`
(jsonl-writer.ts): `writeLine` ignores blank lines and closed/streamless
writers, forwards the line with a newline appended, and on sink
backpressure (when not already backpressured) pauses the source and arms a
once-only drain handler that clears the flag and resumes the source unless
closed; `close` is guarded by the closed flag and the stream being present,
drops the stream and ends it. -/
def jwStep (st : JWState) (op : JWOp) : JWState :=
  match op with
  | .write line ok =>
    if ¬st.hasStream ∨ st.closed ∨ jsTrim line = "" then st
    else
      let st := { st with eff.writes := st.eff.writes ++ [line ++ "\n"] }
      if ¬ok ∧ ¬st.backpressured then
        { st with backpressured := true, eff.pauses := st.eff.pauses + 1 }
      else st
  | .drain =>
    if st.backpressured then
      let st := { st with backpressured := false }
      if ¬st.closed then { st with eff.resumes := st.eff.resumes + 1 } else st
    else st
  | .close =>
    if ¬st.hasStream ∨ st.closed then st
    else { st with closed := true, hasStream := false, eff.endCount := st.eff.endCount + 1 }

/-- Running a sequence of interactions against a writer. -/
def jwRun (st : JWState) (ops : List JWOp) : JWState :=
  ops.foldl jwStep st

/-! ## Parallel task scheduler (mapConcurrent) -/

/-- State of the bounded-concurrency pool: the order-indexed result slots,
the next task to start (start order follows array order), the indices
currently in flight, the shared fail-fast abort flag of the chain
orchestrator's callback, a log of the tasks that were actually started
(a real worker spawned), and a tick counting completions (used to consult
the completion schedule). -/
structure PoolState (β : Type) where
  results : List (Option β)
  nextStart : Nat
  inflight : List Nat
  aborted : Bool
  startedReal : List Nat
  tick : Nat
deriving DecidableEq

/-- Initial pool state for `n` tasks. -/
def PoolState.init (n : Nat) : PoolState β :=
  { results := List.replicate n none, nextStart := 0, inflight := [], aborted := false
    startedReal := [], tick := 0 }

/-- Modelled from the spec: utils.ts `mapConcurrent` is not among the
sources (only its tests and call sites are).  Per the spec it runs `n`
tasks with at most `limit` concurrently in flight, starting tasks in array
order and writing each completion into the result slot of its own index;
completion order is unconstrained and is supplied here by the schedule
`sched`, which at each completion tick picks one of the in-flight tasks.
The callback semantics of the chain orchestrator are threaded through
`onStart` (a task that observes the abort flag at start may complete
immediately with a synthetic result instead of spawning) and `fails`
(whether a completed result sets the abort flag), both translated from
chain-execution.ts.  `fuel` bounds the recursion; `2*n + 1` always
suffices. -/
def poolRun (n limit : Nat) (onStart : Nat → Bool → Option β) (value : Nat → β)
    (fails : β → Bool) (sched : Nat → Nat) : Nat → PoolState β → PoolState β
  | 0, st => st
  | fuel + 1, st =>
    if st.nextStart < n ∧ st.inflight.length < limit then
      match onStart st.nextStart st.aborted with
      | some b =>
        poolRun n limit onStart value fails sched fuel
          { st with results := st.results.set st.nextStart (some b)
                    nextStart := st.nextStart + 1 }
      | none =>
        poolRun n limit onStart value fails sched fuel
          { st with inflight := st.inflight ++ [st.nextStart]
                    startedReal := st.startedReal ++ [st.nextStart]
                    nextStart := st.nextStart + 1 }
    else if st.inflight.length ≠ 0 then
      poolRun n limit onStart value fails sched fuel
        { st with
          results := st.results.set (st.inflight.getD (sched st.tick % st.inflight.length) 0)
            (some (value (st.inflight.getD (sched st.tick % st.inflight.length) 0)))
          inflight := st.inflight.eraseIdx (sched st.tick % st.inflight.length)
          aborted := st.aborted ||
            fails (value (st.inflight.getD (sched st.tick % st.inflight.length) 0))
          tick := st.tick + 1 }
    else st

/-- Top-level pool run from the initial state with sufficient fuel. -/
def poolRunTop (n limit : Nat) (onStart : Nat → Bool → Option β) (value : Nat → β)
    (fails : β → Bool) (sched : Nat → Nat) : PoolState β :=
  poolRun n limit onStart value fails sched (2 * n + 1) (PoolState.init n)

/-- Modelled from the spec: `mapConcurrent` proper — no abort interaction,
every task runs and completes with its mapped value. -/
def mapConcurrent (items : List α) (limit : Nat) (f : Nat → α → β) [Inhabited β]
    (sched : Nat → Nat) : PoolState β :=
  poolRunTop items.length limit (fun _ _ => none)
    (fun i => match items.get? i with | some a => f i a | none => default)
    (fun _ => false) sched

/-! ## chain-execution.ts — helpers -/

/-- Whether `pat` is a leading segment of `cs`. -/
def startsWithL : List Char → List Char → Bool
  | _, [] => true
  | [], _ :: _ => false
  | c :: cs, p :: ps => c = p && startsWithL cs ps

/-- Whether `pat` occurs somewhere in the character list. -/
def containsSub (pat : List Char) : List Char → Bool
  | [] => startsWithL [] pat
  | c :: cs => startsWithL (c :: cs) pat || containsSub pat cs

/-- JS `String.prototype.includes`. -/
def containsStr (s pat : String) : Bool := containsSub pat.data s.data

/-- Left-to-right non-overlapping replacement of every occurrence of `pat`
(JS `String.prototype.replace` with a global pattern).  The fuel argument
is the length of the scanned list; each step consumes at least one
character, so the fuel never runs out. -/
def replaceAllAux (pat rep : List Char) : Nat → List Char → List Char
  | 0, _ => []
  | _, [] => []
  | fuel + 1, c :: cs =>
    if pat ≠ [] ∧ startsWithL (c :: cs) pat then
      rep ++ replaceAllAux pat rep fuel ((c :: cs).drop pat.length)
    else c :: replaceAllAux pat rep fuel cs

/-- String-level global replacement. -/
def replaceAll (s pat rep : String) : String :=
  String.mk (replaceAllAux pat.data rep.data s.data.length s.data)

/-- The chain variable substitution performed per step in `executeChain`:
replace every occurrence of the task, previous and chain-dir variables. -/
def substituteTemplate (template originalTask prev chainDir : String) : String :=
  replaceAll (replaceAll (replaceAll template "{task}" originalTask) "{previous}" prev)
    "{chain_dir}" chainDir

/-- Default step record (used only to give list lookups a total type). -/
instance : Inhabited SequentialStep :=
  ⟨{ agent := "", task := none, cwd := none, output := none, reads := none, progress := none }⟩

/-- The synthetic placeholder returned for a task skipped by fail-fast
(chain-execution.ts, inside the `mapConcurrent` callback). -/
def skipResult (t : ParallelTaskItem) : SingleRes :=
  { agent := t.agent, task := "(skipped)", exitCode := -1, messages := []
    usage := Usage.zero, error := some "Skipped due to fail-fast", modelName := none }

/-- The chain orchestrator's parallel-group execution: the pool scheduler
instantiated with the callback of chain-execution.ts — a task starting
while the abort flag is set (and fail-fast is on) yields the skip
placeholder without spawning, a completed real result with a non-zero exit
code sets the abort flag when fail-fast is on.  `real i` is the result the
worker for task `i` of the group would produce. -/
def parallelPool (tasks : List ParallelTaskItem) (failFast : Bool)
    (real : Nat → SingleRes) (limit : Nat) (sched : Nat → Nat) : PoolState SingleRes :=
  poolRunTop tasks.length limit
    (fun i ab => if ab && failFast then some (skipResult (tasks.getD i default)) else none)
    real
    (fun r => decide (r.exitCode ≠ 0) && failFast)
    sched

/-- Modelled from the spec: formatters.ts `buildChainSummary` is not among
the sources.  Per the spec, failure responses include which step failed,
its error text, and the chain directory location; the exact layout is
unconstrained by any claim. -/
def buildChainSummary (status chainDir : String) (failInfo : Option (Nat × String)) : String :=
  match failInfo with
  | some (i, e) =>
    "Chain " ++ status ++ " at step " ++ toString (i + 1) ++ ": " ++ e ++
      "\nChain dir: " ++ chainDir
  | none => "Chain " ++ status ++ "\nChain dir: " ++ chainDir

/-! ## chain-execution.ts — executeChain -/

/-- The value of `ChainExecutionResult` restricted to the claimed fields:
the text content, the error flag, the accumulated task results exposed in
`details.results`, and `details.currentStepIndex`. -/
structure ChainRes where
  contentText : String
  isError : Bool
  results : List SingleRes
  currentStepIndex : Option Nat
deriving DecidableEq

/-- Mutable state threaded through the orchestrator's step loop, plus the
observables the claims are about: the log of spawned workers (agent and
task string, in spawn order) and whether the chain directory was
removed. -/
structure ChainState where
  prev : String
  results : List SingleRes
  globalTaskIndex : Nat
  progressCreated : Bool
  spawned : List (String × String)
  dirRemoved : Bool
deriving DecidableEq

/-- Initial orchestrator state. -/
def ChainState.init : ChainState :=
  { prev := "", results := [], globalTaskIndex := 0, progressCreated := false
    spawned := [], dirRemoved := false }

deriving instance DecidableEq for Except

/-- Result of a modelled `executeChain` call: the returned value (or the
propagated exception thrown by `resolveParallelBehaviors`, carrying its
message), and the observables. -/
structure ChainExecOutcome where
  outcome : Except String ChainRes
  spawned : List (String × String)
  dirRemoved : Bool
deriving DecidableEq

instance : Inhabited ResolvedStepBehavior := ⟨{ output := none, reads := none, progress := false }⟩

instance : Inhabited SingleRes := ⟨skipResult default⟩

/-- The task string built for task `taskIndex` of a parallel group. -/
def parallelTaskString (parallelTemplates : List String) (behavior : ResolvedStepBehavior)
    (originalTask prev chainDir : String) (taskIndex : Nat) : String :=
  let taskTemplate := parallelTemplates.getD taskIndex "{previous}"
  let templateHasPrevious := containsStr taskTemplate "{previous}"
  let taskStr := substituteTemplate taskTemplate originalTask prev chainDir
  taskStr ++ buildChainInstructions behavior chainDir false
    (if templateHasPrevious then none else some prev)

/-- The step loop of `executeChain` (chain-execution.ts), for the non-TUI
path (`shouldClarify` false: no UI, so no upfront agent validation and no
TUI behavior overrides).  `oracle i` is the result the worker spawned for
global task index `i` would produce; `sched s` is the completion schedule
of the parallel group at step index `s`. -/
def executeChainLoop (agents : List AgentConfig) (oracle : Nat → SingleRes)
    (sched : Nat → Nat → Nat) (originalTask chainDir : String) :
    List ChainStep → List Tmpl → Nat → ChainState → ChainExecOutcome
  | [], _, _, st =>
    { outcome := .ok
        { contentText := buildChainSummary "completed" chainDir none, isError := false
          results := st.results, currentStepIndex := none }
      spawned := st.spawned, dirRemoved := st.dirRemoved }
  | step :: rest, tmpls, stepIndex, st =>
    match step with
    | .par tasks concurrencyOpt failFastOpt =>
      let parallelTemplates := match tmpls.head? with | some (.p ts) => ts | _ => []
      let concurrency := concurrencyOpt.getD MAX_CONCURRENCY
      let failFast := failFastOpt.getD false
      match resolveParallelBehaviors tasks agents stepIndex with
      | .error e =>
        { outcome := .error e, spawned := st.spawned, dirRemoved := st.dirRemoved }
      | .ok parallelBehaviors =>
        let anyNeedsProgress := parallelBehaviors.any (·.progress)
        let progressCreated := st.progressCreated || anyNeedsProgress
        let taskStr := fun (i : Nat) =>
          parallelTaskString parallelTemplates (parallelBehaviors.getD i default)
            originalTask st.prev chainDir i
        let pool := parallelPool tasks failFast
          (fun i => oracle (st.globalTaskIndex + i)) concurrency (sched stepIndex)
        let parallelResults := pool.results.map (fun o => o.getD default)
        let spawned := st.spawned ++
          pool.startedReal.map (fun i => ((tasks.getD i default).agent, taskStr i))
        let results := st.results ++ parallelResults
        let globalTaskIndex := st.globalTaskIndex + tasks.length
        let failures := (parallelResults.enum.filter
          (fun ri => ri.2.exitCode ≠ 0 ∧ ri.2.exitCode ≠ -1))
        if failures.length > 0 then
          let failureSummary := String.intercalate "\n" (failures.map (fun ri =>
            "- Task " ++ toString (ri.1 + 1) ++ " (" ++ ri.2.agent ++ "): " ++
              (jsOrStr ri.2.error "failed")))
          let errorMsg := "Parallel step " ++ toString (stepIndex + 1) ++ " failed:\n" ++
            failureSummary
          { outcome := .ok
              { contentText := buildChainSummary "failed" chainDir (some (stepIndex, errorMsg))
                isError := true, results := results, currentStepIndex := some stepIndex }
            spawned := spawned, dirRemoved := st.dirRemoved }
        else
          let taskResults := parallelResults.enum.map (fun ri =>
            ({ agent := ri.2.agent, taskIndex := ri.1, output := getFinalOutput ri.2.messages
               exitCode := ri.2.exitCode, error := ri.2.error } : ParallelTaskResult))
          executeChainLoop agents oracle sched originalTask chainDir rest tmpls.tail
            (stepIndex + 1)
            { prev := aggregateParallelOutputs taskResults, results := results
              globalTaskIndex := globalTaskIndex, progressCreated := progressCreated
              spawned := spawned, dirRemoved := st.dirRemoved }
    | .seq seqStep =>
      match findAgent agents seqStep.agent with
      | none =>
        { outcome := .ok
            { contentText := "Unknown agent: " ++ seqStep.agent, isError := true
              results := [], currentStepIndex := none }
          spawned := st.spawned, dirRemoved := true }
      | some agentConfig =>
        let stepTemplate := match tmpls.head? with | some (.s t) => t | _ => ""
        let templateHasPrevious := containsStr stepTemplate "{previous}"
        let stepOverride : StepOverrides :=
          { output := seqStep.output, reads := seqStep.reads, progress := seqStep.progress }
        let behavior := resolveStepBehavior agentConfig stepOverride
        let isFirstProgress := behavior.progress ∧ ¬st.progressCreated
        let progressCreated := st.progressCreated || behavior.progress
        let stepTask :=
          substituteTemplate stepTemplate originalTask st.prev chainDir ++
            buildChainInstructions behavior chainDir isFirstProgress
              (if templateHasPrevious then none else some st.prev)
        let r := oracle st.globalTaskIndex
        let spawned := st.spawned ++ [(seqStep.agent, stepTask)]
        let results := st.results ++ [r]
        if r.exitCode ≠ 0 then
          { outcome := .ok
              { contentText := buildChainSummary "failed" chainDir
                  (some (stepIndex, jsOrStr r.error "Chain failed"))
                isError := true, results := results, currentStepIndex := some stepIndex }
            spawned := spawned, dirRemoved := st.dirRemoved }
        else
          executeChainLoop agents oracle sched originalTask chainDir rest tmpls.tail
            (stepIndex + 1)
            { prev := getFinalOutput r.messages, results := results
              globalTaskIndex := st.globalTaskIndex + 1, progressCreated := progressCreated
              spawned := spawned, dirRemoved := st.dirRemoved }

/-- Translation of `executeChain` (chain-execution.ts) for the non-TUI path:
the original task is taken from the first step, templates are resolved, and
the step loop runs from a fresh state.  The TUI clarification overlay
(`shouldClarify`), progress-callback plumbing and artifact bookkeeping do
not affect the claimed observables and are not modelled. -/
def executeChain (agents : List AgentConfig) (oracle : Nat → SingleRes)
    (sched : Nat → Nat → Nat) (chainDir : String) (steps : List ChainStep) :
    ChainExecOutcome :=
  let originalTask := match steps.head? with
    | some (.par tasks _ _) => (tasks.head?.bind (·.task)).getD ""
    | some (.seq s) => s.task.getD ""
    | none => ""
  executeChainLoop agents oracle sched originalTask chainDir steps
    (resolveChainTemplatesV2 steps) 0 ChainState.init

/-! ## Spec-side definitions (for refinement claims) and predicates -/

/-- The step's override fields viewed as `StepOverrides` (the record the
orchestrator builds before calling the resolver). -/
def stepOverridesOf (t : SequentialStep) : StepOverrides :=
  { output := t.output, reads := t.reads, progress := t.progress }

/-- The effective behavior as the spec words it: per field, the override
when supplied (including an explicit false), else the agent's declared
default when one exists, else disabled. -/
def specEffectiveBehavior (cfg : AgentConfig) (ov : StepOverrides) : ResolvedStepBehavior :=
  { output := ov.output.getD cfg.output
    reads := ov.reads.getD cfg.defaultReads
    progress := ov.progress.getD (cfg.defaultProgress.getD false) }

/-- The parallel output rule as the amended claim words it: an explicit
false stays disabled; an absolute override passes through; a relative
override, and a non-empty agent default, are namespaced under the task's
subdirectory. -/
def specParallelOutput (stepIndex taskIndex : Nat) (agentName : String)
    (override : Option (Option String)) (dflt : Option String) : Option String :=
  let subdir := "parallel-" ++ toString stepIndex ++ "/" ++ toString taskIndex ++ "-" ++ agentName
  match override with
  | some none => none
  | some (some p) => some (if isAbsolutePath p then p else subdir ++ "/" ++ p)
  | none =>
    match dflt with
    | some p => if p ≠ "" then some (subdir ++ "/" ++ p) else none
    | none => none

/-- Number of leaf tasks of a chain (one per sequential step, one per task
of a parallel group). -/
def leafCount (steps : List ChainStep) : Nat :=
  (steps.map fun s => match s with
    | .seq _ => 1
    | .par ts _ _ => ts.length).sum

instance : Inhabited ChainStep := ⟨.seq default⟩

instance : Inhabited ParallelTaskResult :=
  ⟨{ agent := "", taskIndex := 0, output := "", exitCode := 0, error := none }⟩

/-- A step the orchestrator can execute and complete successfully, given
the worker results of the environment: all referenced agents are in the
registry, every worker of the step exits 0, and the group's concurrency
limit is positive.  `base` is the global task index of the step's first
leaf task. -/
def stepOk (agents : List AgentConfig) (oracle : Nat → SingleRes) (base : Nat) :
    ChainStep → Prop
  | .seq s => (findAgent agents s.agent).isSome = true ∧ (oracle base).exitCode = 0
  | .par ts c _ =>
    (∀ t ∈ ts, (findAgent agents t.agent).isSome = true) ∧
    (∀ i < ts.length, (oracle (base + i)).exitCode = 0) ∧
    1 ≤ c.getD MAX_CONCURRENCY

/-- A step that references at least one agent missing from the registry. -/
def stepHasUnknown (agents : List AgentConfig) : ChainStep → Prop
  | .seq s => findAgent agents s.agent = none
  | .par ts _ _ => ∃ t ∈ ts, findAgent agents t.agent = none

/-! ## Concrete example inputs (used by witnesses and counterexamples) -/

/-- Registry with the single agent named a. -/
def exAgentA : AgentConfig :=
  { name := "a", output := none, defaultReads := none, defaultProgress := none }

/-- Sequential step referencing agent a with an inline task. -/
def exStepA : SequentialStep :=
  { agent := "a", task := some "t1", cwd := none, output := none, reads := none
    progress := none }

/-- Sequential step referencing an agent absent from the registry. -/
def exStepUnknown : SequentialStep :=
  { agent := "nope", task := none, cwd := none, output := none, reads := none
    progress := none }

/-- A worker result: exit 0 with one assistant message. -/
def exOkResult : SingleRes :=
  { agent := "a", task := "t", exitCode := 0
    messages := [{ role := "assistant", text := "out1", errorMessage := none, usage := none
                   modelName := none, isError := false, toolName := none }]
    usage := Usage.zero, error := none, modelName := none }

/-- A worker result: exit 2 with an error. -/
def exFailResult : SingleRes :=
  { agent := "a", task := "t", exitCode := 2, messages := [], usage := Usage.zero
    error := some "boom", modelName := none }

/-- A bash tool result marked as an error whose output text reports exit
code 0. -/
def exBashZeroMsg : MsgModel :=
  { role := "toolResult", text := "exited with code 0", errorMessage := none, usage := none
    modelName := none, isError := true, toolName := some "bash" }

/-- Worker trace: process exits 0 after emitting only the error-marked bash
tool result of `exBashZeroMsg`. -/
def exBashZeroTrace : ProcTrace :=
  { events := [.toolResultEnd exBashZeroMsg none], stderr := "", exitCode := 0 }

/-- A non-bash tool result marked as an error. -/
def exWriteErrMsg : MsgModel :=
  { role := "toolResult", text := "Permission denied", errorMessage := none, usage := none
    modelName := none, isError := true, toolName := some "write" }

/-- Worker trace: process exits 0 after emitting only the error-marked
write tool result of `exWriteErrMsg`. -/
def exWriteErrTrace : ProcTrace :=
  { events := [.toolResultEnd exWriteErrMsg none], stderr := "", exitCode := 0 }

/-- Parallel task with a relative output path override. -/
def exParTaskRelOut : ParallelTaskItem :=
  { agent := "a", task := some "t1", cwd := none, output := some (some "out.md")
    reads := none, progress := none }

/-- The two parallel task results of Scenario E. -/
def exC7Results : List ParallelTaskResult :=
  [{ agent := "a", taskIndex := 0, output := "ok", exitCode := 0, error := none },
   { agent := "b", taskIndex := 1, output := "", exitCode := 1, error := some "timeout" }]


/-- Invariant of the pool scheduler: results slots are `none` until their
task completes, in-flight indices are distinct started-but-unfinished
tasks, filled slots hold either the task's real value or a synthetic
start-time result handed out while the abort flag was set, a set abort flag
is witnessed by a completed failing result, and the started log records
exactly the tasks that really started. -/
structure PoolInv {β : Type} (n : Nat) (onStart : Nat → Bool → Option β) (value : Nat → β)
    (fails : β → Bool) (st : PoolState β) : Prop where
  lenEq : st.results.length = n
  startLe : st.nextStart ≤ n
  inflightLt : ∀ i ∈ st.inflight, i < st.nextStart
  nodup : st.inflight.Nodup
  inflightNone : ∀ i ∈ st.inflight, st.results[i]? = some none
  restNone : ∀ i, st.nextStart ≤ i → i < n → st.results[i]? = some none
  doneSome : ∀ i, i < st.nextStart → i ∉ st.inflight → ∃ r, st.results[i]? = some (some r)
  filled : ∀ i r, st.results[i]? = some (some r) →
    r = value i ∨ (st.aborted = true ∧ onStart i true = some r)
  abortWitness : st.aborted = true →
    ∃ j, j < n ∧ st.results[j]? = some (some (value j)) ∧ fails (value j) = true
  startedLt : ∀ x ∈ st.startedReal, x < st.nextStart
  startedMem : ∀ x ∈ st.startedReal,
    st.results[x]? = some none ∨ st.results[x]? = some (some (value x))
  startedLen : st.aborted = false → st.startedReal.length = st.nextStart

/-! # Theorems -/

/-! ## Runner ring bounds (C8) -/

lemma capRecentOutput_le (l : List String) : (capRecentOutput l).length ≤ 50 := by
  unfold capRecentOutput
  split
  · simp; omega
  · omega

lemma handleToolStart_recentTools (st : RunState) (n : Option String) (a : String) :
    (handleToolStart st n a).recentTools = st.recentTools := rfl

lemma handleMessageEnd_recentTools (st : RunState) (m : MsgModel) :
    (handleMessageEnd st m).recentTools = st.recentTools := by
  unfold handleMessageEnd
  split <;> rfl

lemma handleToolResult_recentTools (st : RunState) (m : MsgModel) (n : Option String) :
    (handleToolResult st m n).recentTools = st.recentTools := by
  simp only [handleToolResult]
  split <;> split <;> rfl

lemma handleToolEnd_recentTools_le (st : RunState) (now : Nat)
    (h : st.recentTools.length ≤ 5) : (handleToolEnd st now).recentTools.length ≤ 5 := by
  unfold handleToolEnd
  cases hc : st.currentTool
  · simpa using h
  · simp only []
    split
    · simp only [List.length_dropLast, List.length_cons]; omega
    · rename_i h5
      simp only [List.length_cons] at h5 ⊢
      omega

lemma recentTools_le_processEvent (st : RunState) (e : Event)
    (h : st.recentTools.length ≤ 5) : (processEvent st e).recentTools.length ≤ 5 := by
  cases e <;>
    simp only [processEvent, handleToolStart_recentTools, handleMessageEnd_recentTools,
      handleToolResult_recentTools]
  case toolExecutionStart => exact h
  case toolExecutionEnd now => exact handleToolEnd_recentTools_le st now h
  case messageEnd => exact h
  case toolResultEnd => exact h
  case malformed => exact h

lemma handleToolStart_recentOutput (st : RunState) (n : Option String) (a : String) :
    (handleToolStart st n a).recentOutput = st.recentOutput := rfl

lemma handleToolEnd_recentOutput (st : RunState) (now : Nat) :
    (handleToolEnd st now).recentOutput = st.recentOutput := by
  unfold handleToolEnd
  cases st.currentTool <;> rfl

lemma handleMessageEnd_recentOutput_le (st : RunState) (m : MsgModel)
    (h : st.recentOutput.length ≤ 50) : (handleMessageEnd st m).recentOutput.length ≤ 50 := by
  unfold handleMessageEnd
  split
  · simp only []
    split
    · exact capRecentOutput_le _
    · simpa using h
  · simpa using h

lemma handleToolResult_recentOutput_le (st : RunState) (m : MsgModel) (n : Option String)
    (h : st.recentOutput.length ≤ 50) : (handleToolResult st m n).recentOutput.length ≤ 50 := by
  simp only [handleToolResult]
  split <;> split <;> dsimp only <;> split <;>
    first | exact capRecentOutput_le _ | simpa using h

lemma recentOutput_le_processEvent (st : RunState) (e : Event)
    (h : st.recentOutput.length ≤ 50) : (processEvent st e).recentOutput.length ≤ 50 := by
  cases e <;> simp only [processEvent, handleToolStart_recentOutput, handleToolEnd_recentOutput]
  case toolExecutionStart => exact h
  case toolExecutionEnd => exact h
  case messageEnd m => exact handleMessageEnd_recentOutput_le st m h
  case toolResultEnd m n => exact handleToolResult_recentOutput_le st m n h
  case malformed => exact h

lemma rings_le_foldl (events : List Event) :
    ∀ st : RunState, st.recentTools.length ≤ 5 → st.recentOutput.length ≤ 50 →
      (events.foldl processEvent st).recentTools.length ≤ 5 ∧
      (events.foldl processEvent st).recentOutput.length ≤ 50 := by
  induction events with
  | nil => intro st h1 h2; exact ⟨h1, h2⟩
  | cons e rest ih =>
    intro st h1 h2
    exact ih _ (recentTools_le_processEvent st e h1) (recentOutput_le_processEvent st e h2)

/-- C8: for every sequence of protocol events processed by the runner, the
recent-tools ring never holds more than 5 entries and the recent-output
ring never holds more than 50 entries, no matter how many tool executions
or output lines the worker produces. -/
theorem c8_ring_bounds (events : List Event) :
    (processEvents events).recentTools.length ≤ 5 ∧
    (processEvents events).recentOutput.length ≤ 50 :=
  rings_le_foldl events RunState.init (by simp [RunState.init]) (by simp [RunState.init])

/-! ## Unknown agent in runSync (C10) -/

/-- C10: for every call to runSync with an agent name not in the supplied
agent list, runSync resolves normally (the model is a total function; the
source returns rather than throwing) with exit code 1, an empty messages
list, all-zero usage totals, and the unknown-agent error text — the
condition is reported through the result value, not an exception. -/
theorem c10_unknown_agent_result (agents : List AgentConfig) (name task : String)
    (trace : ProcTrace) (h : findAgent agents name = none) :
    (runSync agents name task trace).exitCode = 1 ∧
    (runSync agents name task trace).messages = [] ∧
    (runSync agents name task trace).usage = Usage.zero ∧
    (runSync agents name task trace).error = some ("Unknown agent: " ++ name) := by
  unfold runSync
  rw [h]
  simp [unknownAgentResult]

/-- Witness for C10 at a concrete input. -/
theorem c10_witness :
    findAgent [exAgentA] "nope" = none ∧
    (runSync [exAgentA] "nope" "t" exBashZeroTrace).exitCode = 1 ∧
    (runSync [exAgentA] "nope" "t" exBashZeroTrace).messages = [] ∧
    (runSync [exAgentA] "nope" "t" exBashZeroTrace).usage = Usage.zero ∧
    (runSync [exAgentA] "nope" "t" exBashZeroTrace).error = some "Unknown agent: nope" :=
  ⟨by decide, c10_unknown_agent_result [exAgentA] "nope" "t" exBashZeroTrace (by decide)⟩

/-! ## Hidden failure promotion (C3) -/

/-- C3 (amended): for every task whose worker exits 0 while the last
tool-error slot is non-empty, provided no error message was already
recorded from the event stream and the slot's recorded exit code is
non-zero (bash errors record the code parsed from their output text, other
tool errors record 1), the final result is overridden to that non-zero
exit code and carries the error's details. -/
theorem c3_hidden_failure (agents : List AgentConfig) (name task : String)
    (trace : ProcTrace) (e : ToolError)
    (hAgent : (findAgent agents name).isSome = true)
    (hExit : trace.exitCode = 0)
    (hSlot : (processEvents trace.events).lastToolError = some e)
    (hNoErr : (processEvents trace.events).error = none)
    (hNonzero : e.exitCode ≠ 0) :
    (runSync agents name task trace).exitCode = (e.exitCode : Int) ∧
    (runSync agents name task trace).exitCode ≠ 0 ∧
    (runSync agents name task trace).error = some (toolErrorMessage e) := by
  obtain ⟨cfg, hcfg⟩ := Option.isSome_iff_exists.mp hAgent
  unfold runSync
  rw [hcfg]
  simp only [hExit, hSlot, hNoErr]
  norm_num
  exact hNonzero

set_option maxRecDepth 10000 in
/-- C3 counterexample to the claim as stated: a worker exits 0 after an
error-marked bash tool result whose output text reports exit code 0; the
slot is non-empty and never cleared, yet the final exit code is 0, not
non-zero. -/
theorem c3_counterexample :
    (processEvents exBashZeroTrace.events).lastToolError ≠ none ∧
    exBashZeroTrace.exitCode = 0 ∧
    (runSync [exAgentA] "a" "t" exBashZeroTrace).exitCode = 0 := by
  decide

set_option maxRecDepth 10000 in
/-- Witness for C3 at a concrete input: an error-marked write tool result
with no later successful tool result promotes a zero process exit to
failure 1 carrying the tool error's details. -/
theorem c3_witness :
    ((findAgent [exAgentA] "a").isSome = true ∧
      exWriteErrTrace.exitCode = 0 ∧
      (processEvents exWriteErrTrace.events).lastToolError =
        some ⟨"write", 1, some "Permission denied"⟩ ∧
      (processEvents exWriteErrTrace.events).error = none ∧
      (1 : Nat) ≠ 0) ∧
    (runSync [exAgentA] "a" "t" exWriteErrTrace).exitCode = ((1 : Nat) : Int) ∧
    (runSync [exAgentA] "a" "t" exWriteErrTrace).exitCode ≠ 0 ∧
    (runSync [exAgentA] "a" "t" exWriteErrTrace).error =
      some (toolErrorMessage ⟨"write", 1, some "Permission denied"⟩) :=
  ⟨⟨by decide, by decide, by decide, by decide, by decide⟩,
    c3_hidden_failure [exAgentA] "a" "t" exWriteErrTrace ⟨"write", 1, some "Permission denied"⟩
      (by decide) (by decide) (by decide) (by decide) (by decide)⟩

/-! ## Backpressured event writer (C9) -/

lemma jwStep_noPath (op : JWOp) : jwStep JWState.noPath op = JWState.noPath := by
  cases op <;> simp [jwStep, JWState.noPath]

lemma jwRun_noPath (ops : List JWOp) : jwRun JWState.noPath ops = JWState.noPath := by
  induction ops with
  | nil => rfl
  | cons op rest ih => simpa [jwRun, jwStep_noPath] using ih

lemma jwStep_reach (st : JWState) (op : JWOp)
    (h1 : st.hasStream = !st.closed) (h2 : st.eff.endCount = if st.closed then 1 else 0) :
    (jwStep st op).hasStream = !(jwStep st op).closed ∧
    (jwStep st op).eff.endCount = if (jwStep st op).closed then 1 else 0 := by
  cases op <;> simp only [jwStep] <;> repeat' split
  all_goals simp_all

lemma jwRun_reach (ops : List JWOp) :
    ∀ st : JWState, st.hasStream = !st.closed →
      st.eff.endCount = (if st.closed then 1 else 0) →
      (jwRun st ops).hasStream = !(jwRun st ops).closed ∧
      (jwRun st ops).eff.endCount = if (jwRun st ops).closed then 1 else 0 := by
  induction ops with
  | nil => intro st h1 h2; exact ⟨h1, h2⟩
  | cons op rest ih =>
    intro st h1 h2
    obtain ⟨g1, g2⟩ := jwStep_reach st op h1 h2
    exact ih _ g1 g2

lemma jwStep_close_closed (st : JWState) (h1 : st.hasStream = !st.closed) :
    (jwStep st .close).closed = true := by
  simp only [jwStep]
  split
  · rename_i hg
    rcases hg with hg | hg
    · cases hc : st.closed
      · rw [hc] at h1; simp at h1; simp [h1] at hg
      · simp [hc]
    · exact hg
  · rfl

lemma jwStep_close_idem (st : JWState) :
    jwStep (jwStep st .close) .close = jwStep st .close := by
  by_cases hg : ¬st.hasStream = true ∨ st.closed = true
  · have : jwStep st .close = st := by simp only [jwStep]; rw [if_pos hg]
    rw [this, this]
  · have : jwStep st .close =
      { st with closed := true, hasStream := false
                eff.endCount := st.eff.endCount + 1 } := by
      simp only [jwStep]; rw [if_neg hg]
    rw [this]
    simp [jwStep]

lemma jwRun_replicate_close : ∀ n : Nat, 1 ≤ n → ∀ st : JWState,
    jwRun st (List.replicate n .close) = jwStep st .close := by
  intro n
  induction n with
  | zero => intro h; omega
  | succ m ih =>
    intro _ st
    cases Nat.eq_zero_or_pos m with
    | inl h0 => subst h0; simp [jwRun, List.replicate]
    | inr hpos =>
      rw [List.replicate_succ]
      have hstep : jwRun st (.close :: List.replicate m .close) =
          jwRun (jwStep st .close) (List.replicate m .close) := rfl
      rw [hstep, ih hpos, jwStep_close_idem]

/-- C9: closing the writer any number of times at least one has the same
observable effect as closing it once, and the sink is ended exactly once;
a writer built with no destination path is a complete no-op (the source is
never paused or resumed, nothing is written, nothing is ended). -/
theorem c9_close_idempotent_noop (ops : List JWOp) (n : Nat) (ops₂ : List JWOp)
    (hn : 1 ≤ n) :
    jwRun JWState.withPath (ops ++ List.replicate n .close) =
      jwRun JWState.withPath (ops ++ [.close]) ∧
    (jwRun JWState.withPath (ops ++ List.replicate n .close)).eff.endCount = 1 ∧
    jwRun JWState.noPath ops₂ = JWState.noPath := by
  have hsplit : ∀ l2 : List JWOp, jwRun JWState.withPath (ops ++ l2) =
      jwRun (jwRun JWState.withPath ops) l2 := by
    intro l2; simp [jwRun, List.foldl_append]
  have h1 : jwRun JWState.withPath (ops ++ List.replicate n .close) =
      jwStep (jwRun JWState.withPath ops) .close := by
    rw [hsplit, jwRun_replicate_close n hn]
  have hone : jwRun JWState.withPath (ops ++ [.close]) =
      jwStep (jwRun JWState.withPath ops) .close := by
    rw [hsplit]; rfl
  obtain ⟨r1, r2⟩ := jwRun_reach ops JWState.withPath (by rfl) (by rfl)
  obtain ⟨s1, s2⟩ := jwStep_reach (jwRun JWState.withPath ops) .close r1 r2
  refine ⟨by rw [h1, hone], ?_, jwRun_noPath ops₂⟩
  rw [h1, s2, jwStep_close_closed _ r1]
  rfl

/-- Witness for C9 at concrete inputs. -/
theorem c9_witness :
    (1 ≤ 2) ∧
    (jwRun JWState.withPath ([JWOp.write "x" true] ++ List.replicate 2 .close) =
      jwRun JWState.withPath ([JWOp.write "x" true] ++ [.close]) ∧
    (jwRun JWState.withPath ([JWOp.write "x" true] ++ List.replicate 2 .close)).eff.endCount = 1 ∧
    jwRun JWState.noPath [JWOp.write "y" false, .close] = JWState.noPath) :=
  ⟨by decide,
    c9_close_idempotent_noop [JWOp.write "x" true] 2 [JWOp.write "y" false, .close] (by decide)⟩

/-! ## Behavior precedence (C2) -/

lemma resolveParallelBehaviorsAux_spec :
    ∀ (ts : List ParallelTaskItem) (cfgs : List AgentConfig) (sIdx t0 : Nat)
      (bs : List ResolvedStepBehavior),
      resolveParallelBehaviorsAux ts cfgs sIdx t0 = .ok bs →
      bs.length = ts.length ∧
      ∀ i, i < ts.length → ∃ cfg,
        findAgent cfgs (ts.getD i default).agent = some cfg ∧
        (bs.getD i default).reads = ((ts.getD i default).reads.getD cfg.defaultReads) ∧
        (bs.getD i default).progress =
          ((ts.getD i default).progress.getD (cfg.defaultProgress.getD false)) ∧
        (bs.getD i default).output =
          specParallelOutput sIdx (t0 + i) (ts.getD i default).agent
            (ts.getD i default).output cfg.output := by
  intro ts
  induction ts with
  | nil =>
    intro cfgs sIdx t0 bs h
    simp only [resolveParallelBehaviorsAux] at h
    cases h
    exact ⟨rfl, fun i hi => absurd hi (by simp)⟩
  | cons t rest ih =>
    intro cfgs sIdx t0 bs h
    simp only [resolveParallelBehaviorsAux] at h
    cases hf : findAgent cfgs t.agent with
    | none => rw [hf] at h; cases h
    | some cfg =>
      rw [hf] at h
      cases hr : resolveParallelBehaviorsAux rest cfgs sIdx (t0 + 1) with
      | error e => rw [hr] at h; cases h
      | ok bs' =>
        rw [hr] at h
        cases h
        obtain ⟨hlen, hrest⟩ := ih cfgs sIdx (t0 + 1) bs' hr
        refine ⟨by simpa using hlen, ?_⟩
        intro i hi
        cases i with
        | zero =>
          refine ⟨cfg, by simpa using hf,
            by simp only [List.getD_cons_zero]; cases t.reads <;> rfl,
            by simp only [List.getD_cons_zero]; cases t.progress <;> rfl, ?_⟩
          simp only [List.getD_cons_zero, specParallelOutput, Nat.add_zero]
          cases ho : t.output with
          | none =>
            cases hco : cfg.output with
            | none => rfl
            | some p => by_cases hp : p = "" <;> simp [hp]
          | some v =>
            cases v with
            | none => rfl
            | some p => by_cases hp : isAbsolutePath p <;> simp [hp]
        | succ j =>
          have hj : j < rest.length := by simpa using hi
          obtain ⟨cfg', h1, h2, h3, h4⟩ := hrest j hj
          refine ⟨cfg', by simpa using h1, by simpa using h2, by simpa using h3, ?_⟩
          simpa [Nat.add_assoc, Nat.add_comm 1 j] using h4

/-- C2 (amended): for the sequential resolver every field of the resolved
behavior equals override, else agent default, else disabled, exactly as the
spec words it; for a parallel group the reads and progress fields follow
the same precedence, while the output field follows the precedence with
namespacing — an explicit false stays disabled, an absolute override passes
through, and a relative override or a non-empty agent default is prefixed
with the task's parallel subdirectory. -/
theorem c2_behavior_precedence :
    (∀ (cfg : AgentConfig) (ov : StepOverrides),
      resolveStepBehavior cfg ov = specEffectiveBehavior cfg ov) ∧
    (∀ (ts : List ParallelTaskItem) (cfgs : List AgentConfig) (sIdx : Nat)
      (bs : List ResolvedStepBehavior),
      resolveParallelBehaviors ts cfgs sIdx = .ok bs →
      bs.length = ts.length ∧
      ∀ i, i < ts.length → ∃ cfg,
        findAgent cfgs (ts.getD i default).agent = some cfg ∧
        (bs.getD i default).reads = ((stepOverridesOf (ts.getD i default)).reads.getD cfg.defaultReads) ∧
        (bs.getD i default).progress =
          ((stepOverridesOf (ts.getD i default)).progress.getD (cfg.defaultProgress.getD false)) ∧
        (bs.getD i default).output =
          specParallelOutput sIdx i (ts.getD i default).agent
            (ts.getD i default).output cfg.output) := by
  constructor
  · intro cfg ov
    rcases ov with ⟨o, r, p⟩
    rcases o with _ | _ <;> rcases r with _ | _ <;> rcases p with _ | _ <;> rfl
  · intro ts cfgs sIdx bs h
    have := resolveParallelBehaviorsAux_spec ts cfgs sIdx 0 bs h
    simpa [stepOverridesOf] using this

set_option maxRecDepth 10000 in
/-- C2 counterexample to the claim as stated: in a parallel group a
relative output override is namespaced under the task subdirectory, so the
resolved output does not equal the supplied override. -/
theorem c2_counterexample :
    exParTaskRelOut.output = some (some "out.md") ∧
    resolveParallelBehaviors [exParTaskRelOut] [exAgentA] 0 =
      .ok [{ output := some "parallel-0/0-a/out.md", reads := none, progress := false }] ∧
    (some "parallel-0/0-a/out.md" : Option String) ≠ some "out.md" := by
  decide

set_option maxRecDepth 10000 in
/-- Witness for C2 at concrete inputs. -/
theorem c2_witness :
    resolveStepBehavior exAgentA { output := some (some "o.md"), reads := none, progress := some true } =
      specEffectiveBehavior exAgentA { output := some (some "o.md"), reads := none, progress := some true } ∧
    resolveParallelBehaviors [exParTaskRelOut] [exAgentA] 0 =
      .ok [{ output := some "parallel-0/0-a/out.md", reads := none, progress := false }] ∧
    findAgent [exAgentA] (([exParTaskRelOut] : List ParallelTaskItem).getD 0 default).agent = some exAgentA ∧
    (([{ output := some "parallel-0/0-a/out.md", reads := none, progress := false }] : List ResolvedStepBehavior).getD 0 default).output =
      specParallelOutput 0 0 (([exParTaskRelOut] : List ParallelTaskItem).getD 0 default).agent
        (([exParTaskRelOut] : List ParallelTaskItem).getD 0 default).output exAgentA.output := by
  have hok : resolveParallelBehaviors [exParTaskRelOut] [exAgentA] 0 =
      .ok [{ output := some "parallel-0/0-a/out.md", reads := none, progress := false }] := by decide
  refine ⟨c2_behavior_precedence.1 exAgentA _, hok, ?_⟩
  obtain ⟨cfg, h1, _, _, h4⟩ :=
    (c2_behavior_precedence.2 [exParTaskRelOut] [exAgentA] 0 _ hok).2 0 (by decide)
  have hcfg : cfg = exAgentA := by
    have h1' : findAgent [exAgentA]
        (([exParTaskRelOut] : List ParallelTaskItem).getD 0 default).agent = some exAgentA := by decide
    rw [h1'] at h1
    exact (Option.some.inj h1).symm
  subst hcfg
  exact ⟨h1, h4⟩

/-! ## Parallel output aggregation (C7) -/

lemma startsWithL_same_append (p q : List Char) : startsWithL (p ++ q) p = true := by
  induction p with
  | nil => cases q <;> rfl
  | cons c cs ih => simpa [startsWithL] using ih

lemma startsWithL_append_of (pat : List Char) :
    ∀ a b, startsWithL a pat = true → startsWithL (a ++ b) pat = true := by
  induction pat with
  | nil => intro a b _; cases a ++ b <;> rfl
  | cons p ps ih =>
    intro a b h
    cases a with
    | nil => simp [startsWithL] at h
    | cons c cs =>
      simp only [startsWithL, Bool.and_eq_true] at h ⊢
      exact ⟨h.1, ih cs b h.2⟩

lemma containsSub_of_startsWithL (pat l : List Char) (h : startsWithL l pat = true) :
    containsSub pat l = true := by
  cases l with
  | nil => simpa [containsSub] using h
  | cons c cs => simp [containsSub, h]

lemma containsSub_append_left (pat : List Char) :
    ∀ a b, containsSub pat a = true → containsSub pat (a ++ b) = true := by
  intro a
  induction a with
  | nil =>
    intro b h
    simp only [containsSub] at h
    cases pat with
    | nil => exact containsSub_of_startsWithL _ _ (by cases b <;> rfl)
    | cons p ps => simp [startsWithL] at h
  | cons c cs ih =>
    intro b h
    simp only [containsSub, Bool.or_eq_true] at h ⊢
    rcases h with h | h
    · exact Or.inl (startsWithL_append_of pat _ b h)
    · exact Or.inr (ih b h)

lemma containsSub_append_right (pat : List Char) :
    ∀ a b, containsSub pat b = true → containsSub pat (a ++ b) = true := by
  intro a
  induction a with
  | nil => intro b h; exact h
  | cons c cs ih =>
    intro b h
    simp only [containsSub, Bool.or_eq_true]
    exact Or.inr (ih b h)

lemma strData_append (a b : String) : (a ++ b).data = a.data ++ b.data := by
  cases a; cases b; rfl

lemma containsStr_append_left (a b pat : String) (h : containsStr a pat = true) :
    containsStr (a ++ b) pat = true := by
  unfold containsStr at h ⊢
  rw [strData_append]
  exact containsSub_append_left _ _ _ h

lemma containsStr_append_right (a b pat : String) (h : containsStr b pat = true) :
    containsStr (a ++ b) pat = true := by
  unfold containsStr at h ⊢
  rw [strData_append]
  exact containsSub_append_right _ _ _ h

lemma containsStr_joinSep_mem (sep : String) :
    ∀ (parts : List String) (x : String), x ∈ parts →
      ∀ pat, containsStr x pat = true → containsStr (joinSep sep parts) pat = true := by
  intro parts
  induction parts with
  | nil => intro x hx; cases hx
  | cons a rest ih =>
    intro x hx pat hpat
    cases rest with
    | nil =>
      rcases List.mem_singleton.mp hx with rfl
      simpa [joinSep] using hpat
    | cons b rest' =>
      rcases List.mem_cons.mp hx with rfl | hx'
      · show containsStr (x ++ sep ++ joinSep sep (b :: rest')) pat = true
        exact containsStr_append_left _ _ _ (containsStr_append_left _ _ _ hpat)
      · show containsStr (a ++ sep ++ joinSep sep (b :: rest')) pat = true
        exact containsStr_append_right _ _ _ (ih x hx' pat hpat)

lemma runnerAggSection_mem :
    ∀ (rs : List ParallelTaskResult) (i0 i : Nat), i < rs.length →
      runnerAggSection (rs.getD i default) (i0 + i + 1) ∈ runnerAggSections rs i0 := by
  intro rs
  induction rs with
  | nil => intro i0 i hi; simp at hi
  | cons r rest ih =>
    intro i0 i hi
    cases i with
    | zero => simp [runnerAggSections]
    | succ j =>
      have hj : j < rest.length := by simpa using hi
      have hmem := ih (i0 + 1) j hj
      simp only [runnerAggSections, List.getD_cons_succ, List.mem_cons]
      right
      have harith : i0 + (j + 1) + 1 = i0 + 1 + j + 1 := by omega
      rw [harith]
      exact hmem

lemma containsStr_header_section (r : ParallelTaskResult) (n : Nat) :
    containsStr (runnerAggSection r n)
      ("=== Parallel Task " ++ toString n ++ " (" ++ r.agent ++ ") ===") = true := by
  unfold runnerAggSection containsStr
  refine containsSub_of_startsWithL _ _ ?_
  rw [strData_append, strData_append, strData_append, List.append_assoc, List.append_assoc]
  exact startsWithL_same_append _ _

set_option maxRecDepth 40000 in
/-- C7: the aggregated parallel output for Scenario E contains both the
first task's numbered header and a failure marker naming timeout for task
2, and in general the aggregation places each task's output section under
its numbered agent header, in original task order. -/
theorem c7_aggregate_headers :
    containsStr (runnerAggregateOutputs exC7Results) "=== Parallel Task 1 (a) ===" = true ∧
    containsStr (runnerAggregateOutputs exC7Results) "⚠️ FAILED (exit code 1): timeout" = true ∧
    ∀ (rs : List ParallelTaskResult) (i : Nat), i < rs.length →
      containsStr (runnerAggregateOutputs rs)
        ("=== Parallel Task " ++ toString (i + 1) ++ " (" ++ (rs.getD i default).agent ++ ") ===")
        = true := by
  refine ⟨by decide, by decide, ?_⟩
  intro rs i hi
  unfold runnerAggregateOutputs
  have hmem := runnerAggSection_mem rs 0 i hi
  rw [Nat.zero_add] at hmem
  exact containsStr_joinSep_mem "\n\n" (runnerAggSections rs 0) _ hmem _
    (containsStr_header_section (rs.getD i default) (i + 1))

set_option maxRecDepth 40000 in
/-- Witness for C7 at a concrete input: the header of the second task. -/
theorem c7_witness :
    1 < exC7Results.length ∧
    containsStr (runnerAggregateOutputs exC7Results)
      ("=== Parallel Task " ++ toString (1 + 1) ++ " (" ++ (exC7Results.getD 1 default).agent ++ ") ===")
      = true :=
  ⟨by decide, c7_aggregate_headers.2.2 exC7Results 1 (by decide)⟩

/-! ## Pool scheduler lemmas (C4, C5) -/

lemma mem_eraseIdx_of_mem_ne {α : Type} :
    ∀ (l : List α) (j : Nat) (hj : j < l.length) (x : α),
      x ∈ l → x ≠ l[j] → x ∈ l.eraseIdx j := by
  intro l
  induction l with
  | nil => intro j hj; simp at hj
  | cons c t ih =>
    intro j hj x hx hne
    cases j with
    | zero =>
      simp only [List.eraseIdx]
      rcases List.mem_cons.mp hx with rfl | hmem
      · exact absurd rfl hne
      · exact hmem
    | succ k =>
      simp only [List.eraseIdx, List.mem_cons]
      rcases List.mem_cons.mp hx with rfl | hmem
      · exact Or.inl rfl
      · exact Or.inr (ih k (by simpa using hj) x hmem (by simpa using hne))

lemma getElem_not_mem_eraseIdx {α : Type} :
    ∀ (l : List α), l.Nodup → ∀ (j : Nat) (hj : j < l.length), l[j] ∉ l.eraseIdx j := by
  intro l
  induction l with
  | nil => intro _ j hj; simp at hj
  | cons c t ih =>
    intro hnd j hj
    cases j with
    | zero => simpa using (List.nodup_cons.mp hnd).1
    | succ k =>
      intro hmem
      have hk : k < t.length := by simpa using hj
      simp only [List.eraseIdx] at hmem
      have hget : (c :: t)[k + 1] = t[k] := by simp
      rw [hget] at hmem
      rcases List.mem_cons.mp hmem with heq | hmem'
      · exact (List.nodup_cons.mp hnd).1 (heq ▸ List.getElem_mem hk)
      · exact ih (List.nodup_cons.mp hnd).2 k hk hmem'

lemma poolInv_init {β : Type} (n : Nat) (onStart : Nat → Bool → Option β) (value : Nat → β)
    (fails : β → Bool) : PoolInv n onStart value fails (PoolState.init n) := by
  constructor <;> simp [PoolState.init, List.getElem?_replicate]

lemma poolInv_skipStart {β : Type} {n : Nat} {onStart : Nat → Bool → Option β}
    {value : Nat → β} {fails : β → Bool} {st : PoolState β} {b : β}
    (hInv : PoolInv n onStart value fails st)
    (honStart : ∀ i ab b, onStart i ab = some b → ab = true)
    (hA : st.nextStart < n)
    (ho : onStart st.nextStart st.aborted = some b) :
    PoolInv n onStart value fails
      { st with results := st.results.set st.nextStart (some b)
                nextStart := st.nextStart + 1 } := by
  have hab : st.aborted = true := honStart _ _ _ ho
  have hlen : st.nextStart < st.results.length := by rw [hInv.lenEq]; exact hA
  refine ⟨?_, ?_, ?_, ?_, ?_, ?_, ?_, ?_, ?_, ?_, ?_, ?_⟩
  · simp [List.length_set, hInv.lenEq]
  · simp only []; omega
  · intro i hi
    have := hInv.inflightLt i hi
    simp only []
    omega
  · exact hInv.nodup
  · intro i hi
    have hlt := hInv.inflightLt i hi
    simp only []
    rw [List.getElem?_set_ne (by omega)]
    exact hInv.inflightNone i hi
  · intro i hle hin
    simp only [] at hle ⊢
    rw [List.getElem?_set_ne (by omega)]
    exact hInv.restNone i (by omega) hin
  · intro i hlt hni
    simp only [] at hlt ⊢
    by_cases hi : i = st.nextStart
    · subst hi
      exact ⟨b, by rw [List.getElem?_set_self hlen]⟩
    · rw [List.getElem?_set_ne (by omega)]
      exact hInv.doneSome i (by omega) hni
  · intro i r hr
    simp only [] at hr ⊢
    by_cases hi : i = st.nextStart
    · subst hi
      rw [List.getElem?_set_self hlen] at hr
      have hbr : b = r := by
        have := Option.some.inj (Option.some.inj hr)
        exact this
      right
      refine ⟨hab, ?_⟩
      rw [hab] at ho
      rw [← hbr]
      exact ho
    · rw [List.getElem?_set_ne (by omega)] at hr
      rcases hInv.filled i r hr with h | ⟨ha, h2⟩
      · exact Or.inl h
      · exact Or.inr ⟨ha, h2⟩
  · intro _
    obtain ⟨j, hj, hslot, hf⟩ := hInv.abortWitness hab
    have hne : st.nextStart ≠ j := by
      intro heq
      rw [← heq] at hslot
      rw [hInv.restNone st.nextStart (Nat.le_refl _) hA] at hslot
      cases Option.some.inj hslot
    refine ⟨j, hj, ?_, hf⟩
    simp only []
    rw [List.getElem?_set_ne hne]
    exact hslot
  · intro x hx
    have := hInv.startedLt x hx
    simp only []
    omega
  · intro x hx
    have hxlt := hInv.startedLt x hx
    simp only []
    rw [List.getElem?_set_ne (by omega)]
    exact hInv.startedMem x hx
  · intro hf
    simp only [] at hf
    rw [hf] at hab
    cases hab

lemma poolInv_realStart {β : Type} {n : Nat} {onStart : Nat → Bool → Option β}
    {value : Nat → β} {fails : β → Bool} {st : PoolState β}
    (hInv : PoolInv n onStart value fails st)
    (hA : st.nextStart < n) :
    PoolInv n onStart value fails
      { st with inflight := st.inflight ++ [st.nextStart]
                startedReal := st.startedReal ++ [st.nextStart]
                nextStart := st.nextStart + 1 } := by
  refine ⟨?_, ?_, ?_, ?_, ?_, ?_, ?_, ?_, ?_, ?_, ?_, ?_⟩
  · exact hInv.lenEq
  · simp only []; omega
  · intro i hi
    simp only [List.mem_append, List.mem_singleton] at hi
    rcases hi with hi | rfl
    · have := hInv.inflightLt i hi; simp only []; omega
    · simp only []; omega
  · simp only []
    rw [List.nodup_append]
    refine ⟨hInv.nodup, List.nodup_singleton _, ?_⟩
    intro a ha hb
    rw [List.mem_singleton] at hb
    subst hb
    exact absurd (hInv.inflightLt _ ha) (by omega)
  · intro i hi
    simp only [List.mem_append, List.mem_singleton] at hi
    rcases hi with hi | rfl
    · exact hInv.inflightNone i hi
    · exact hInv.restNone _ (Nat.le_refl _) hA
  · intro i hle hin
    simp only [] at hle
    exact hInv.restNone i (by omega) hin
  · intro i hlt hni
    simp only [] at hlt
    simp only [List.mem_append, List.mem_singleton] at hni
    push_neg at hni
    exact hInv.doneSome i (by omega) hni.1
  · exact hInv.filled
  · exact hInv.abortWitness
  · intro x hx
    simp only [List.mem_append, List.mem_singleton] at hx
    rcases hx with hx | rfl
    · have := hInv.startedLt x hx; simp only []; omega
    · simp only []; omega
  · intro x hx
    simp only [List.mem_append, List.mem_singleton] at hx
    rcases hx with hx | rfl
    · exact hInv.startedMem x hx
    · exact Or.inl (hInv.restNone _ (Nat.le_refl _) hA)
  · intro hf
    simp only [] at hf
    simp [List.length_append, hInv.startedLen hf]

lemma poolInv_complete {β : Type} {n : Nat} {onStart : Nat → Bool → Option β}
    {value : Nat → β} {fails : β → Bool} {st : PoolState β}
    (hInv : PoolInv n onStart value fails st)
    (j : Nat) (hj : j < st.inflight.length) :
    PoolInv n onStart value fails
      { st with results := st.results.set (st.inflight[j]) (some (value (st.inflight[j])))
                inflight := st.inflight.eraseIdx j
                aborted := st.aborted || fails (value (st.inflight[j]))
                tick := st.tick + 1 } := by
  have hi_mem : st.inflight[j] ∈ st.inflight := List.getElem_mem hj
  have hi_lt : st.inflight[j] < st.nextStart := hInv.inflightLt _ hi_mem
  have hi_n : st.inflight[j] < n := Nat.lt_of_lt_of_le hi_lt hInv.startLe
  have hlen : st.inflight[j] < st.results.length := by rw [hInv.lenEq]; exact hi_n
  have hsub : ∀ x, x ∈ st.inflight.eraseIdx j → x ∈ st.inflight :=
    fun x hx => (List.eraseIdx_sublist st.inflight j).subset hx
  have hne_er : ∀ x, x ∈ st.inflight.eraseIdx j → x ≠ st.inflight[j] := by
    intro x hx heq
    subst heq
    exact getElem_not_mem_eraseIdx st.inflight hInv.nodup j hj hx
  refine ⟨?_, ?_, ?_, ?_, ?_, ?_, ?_, ?_, ?_, ?_, ?_, ?_⟩
  · simp [List.length_set, hInv.lenEq]
  · exact hInv.startLe
  · intro x hx
    exact hInv.inflightLt x (hsub x hx)
  · exact List.Nodup.sublist (List.eraseIdx_sublist st.inflight j) hInv.nodup
  · intro x hx
    simp only []
    rw [List.getElem?_set_ne (fun h => hne_er x hx h.symm)]
    exact hInv.inflightNone x (hsub x hx)
  · intro x hle hx
    simp only [] at hle ⊢
    rw [List.getElem?_set_ne (by omega)]
    exact hInv.restNone x hle hx
  · intro x hlt hx
    simp only [] at hlt hx ⊢
    by_cases hxi : x = st.inflight[j]
    · subst hxi
      exact ⟨_, by rw [List.getElem?_set_self hlen]⟩
    · have hxin : x ∉ st.inflight := by
        intro hmem
        exact hx (mem_eraseIdx_of_mem_ne st.inflight j hj x hmem hxi)
      rw [List.getElem?_set_ne (fun h => hxi h.symm)]
      exact hInv.doneSome x hlt hxin
  · intro x r hr
    simp only [] at hr ⊢
    by_cases hxi : x = st.inflight[j]
    · subst hxi
      rw [List.getElem?_set_self hlen] at hr
      exact Or.inl (Option.some.inj (Option.some.inj hr)).symm
    · rw [List.getElem?_set_ne (fun h => hxi h.symm)] at hr
      rcases hInv.filled x r hr with h | ⟨ha, h2⟩
      · exact Or.inl h
      · refine Or.inr ⟨?_, h2⟩
        rw [ha]
        rfl
  · intro habort
    simp only [] at habort
    have habort' : st.aborted = true ∨ fails (value (st.inflight[j])) = true := by
      simpa using habort
    rcases habort' with ha | hf
    · obtain ⟨j₀, hj₀, hslot, hfl⟩ := hInv.abortWitness ha
      have hne : st.inflight[j] ≠ j₀ := by
        intro heq
        rw [← heq] at hslot
        rw [hInv.inflightNone _ hi_mem] at hslot
        cases Option.some.inj hslot
      refine ⟨j₀, hj₀, ?_, hfl⟩
      simp only []
      rw [List.getElem?_set_ne hne]
      exact hslot
    · refine ⟨st.inflight[j], hi_n, ?_, hf⟩
      simp only []
      rw [List.getElem?_set_self hlen]
  · intro x hx
    exact hInv.startedLt x hx
  · intro x hx
    simp only []
    by_cases hxi : x = st.inflight[j]
    · subst hxi
      exact Or.inr (by rw [List.getElem?_set_self hlen])
    · rw [List.getElem?_set_ne (fun h => hxi h.symm)]
      exact hInv.startedMem x hx
  · intro hf
    simp only [Bool.or_eq_false_iff] at hf
    exact hInv.startedLen hf.1

lemma poolRun_preserves {β : Type} (n limit : Nat) (onStart : Nat → Bool → Option β)
    (value : Nat → β) (fails : β → Bool) (sched : Nat → Nat)
    (honStart : ∀ i ab b, onStart i ab = some b → ab = true) :
    ∀ (fuel : Nat) (st : PoolState β), PoolInv n onStart value fails st →
      PoolInv n onStart value fails (poolRun n limit onStart value fails sched fuel st) := by
  intro fuel
  induction fuel with
  | zero => intro st h; exact h
  | succ m ih =>
    intro st hInv
    rw [poolRun]
    split
    · rename_i hA
      cases ho : onStart st.nextStart st.aborted with
      | some b => exact ih _ (poolInv_skipStart hInv honStart hA.1 ho)
      | none => exact ih _ (poolInv_realStart hInv hA.1)
    · split
      · rename_i hB
        have hj : sched st.tick % st.inflight.length < st.inflight.length :=
          Nat.mod_lt _ (Nat.pos_of_ne_zero hB)
        have hgd : st.inflight.getD (sched st.tick % st.inflight.length) 0 =
            st.inflight[sched st.tick % st.inflight.length] :=
          List.getD_eq_getElem _ _ hj
        rw [hgd]
        exact ih _ (poolInv_complete hInv _ hj)
      · exact hInv

lemma poolRun_guardsFail {β : Type} (n limit : Nat) (onStart : Nat → Bool → Option β)
    (value : Nat → β) (fails : β → Bool) (sched : Nat → Nat) :
    ∀ (fuel : Nat) (st : PoolState β),
      2 * (n - st.nextStart) + st.inflight.length ≤ fuel →
      ¬((poolRun n limit onStart value fails sched fuel st).nextStart < n ∧
          (poolRun n limit onStart value fails sched fuel st).inflight.length < limit) ∧
      (poolRun n limit onStart value fails sched fuel st).inflight = [] := by
  intro fuel
  induction fuel with
  | zero =>
    intro st hm
    have h1 : n - st.nextStart = 0 := by omega
    have h2 : st.inflight.length = 0 := by omega
    rw [poolRun]
    constructor
    · intro hc
      omega
    · exact List.length_eq_zero.mp h2
  | succ m ih =>
    intro st hm
    rw [poolRun]
    split
    · rename_i hA
      cases ho : onStart st.nextStart st.aborted with
      | some b =>
        refine ih _ ?_
        simp only []
        omega
      | none =>
        refine ih _ ?_
        simp only [List.length_append, List.length_singleton]
        omega
    · split
      · rename_i hB
        have hj : sched st.tick % st.inflight.length < st.inflight.length :=
          Nat.mod_lt _ (Nat.pos_of_ne_zero hB)
        refine ih _ ?_
        simp only []
        rw [List.length_eraseIdx]
        rw [if_pos hj]
        omega
      · rename_i hA hB
        push_neg at hB
        exact ⟨by assumption, List.length_eq_zero.mp (by omega)⟩

lemma poolRunTop_facts {β : Type} (n limit : Nat) (onStart : Nat → Bool → Option β)
    (value : Nat → β) (fails : β → Bool) (sched : Nat → Nat)
    (hlimit : 1 ≤ limit)
    (honStart : ∀ i ab b, onStart i ab = some b → ab = true) :
    PoolInv n onStart value fails (poolRunTop n limit onStart value fails sched) ∧
    (poolRunTop n limit onStart value fails sched).nextStart = n ∧
    (poolRunTop n limit onStart value fails sched).inflight = [] := by
  unfold poolRunTop
  have hInv := poolRun_preserves n limit onStart value fails sched honStart (2 * n + 1)
    (PoolState.init n) (poolInv_init n onStart value fails)
  have hg := poolRun_guardsFail n limit onStart value fails sched (2 * n + 1)
    (PoolState.init n) (by simp [PoolState.init])
  refine ⟨hInv, ?_, hg.2⟩
  have hle := hInv.startLe
  by_contra hne
  have hlt : (poolRun n limit onStart value fails sched (2 * n + 1)
      (PoolState.init n)).nextStart < n := Nat.lt_of_le_of_ne hle hne
  exact hg.1 ⟨hlt, by rw [hg.2]; simpa using hlimit⟩

/-- C5: for every task list, concurrency limit (at least 1) and completion
schedule, the scheduler returns a result list of the same length in which
slot i holds the value produced for task i, regardless of the order in
which tasks complete. -/
theorem c5_mapConcurrent_order {α β : Type} [Inhabited β] (items : List α) (limit : Nat)
    (f : Nat → α → β) (sched : Nat → Nat) (hlimit : 1 ≤ limit) :
    (mapConcurrent items limit f sched).results.length = items.length ∧
    ∀ i a, items[i]? = some a →
      (mapConcurrent items limit f sched).results[i]? = some (some (f i a)) := by
  have honStart : ∀ (i : Nat) (ab : Bool) (b : β),
      (fun (_ : Nat) (_ : Bool) => (none : Option β)) i ab = some b → ab = true := by
    intro i ab b h; cases h
  obtain ⟨hInv, hns, hempty⟩ := poolRunTop_facts items.length limit
    (fun _ _ => none)
    (fun i => match items.get? i with | some a => f i a | none => default)
    (fun _ => false) sched hlimit honStart
  constructor
  · exact hInv.lenEq
  · intro i a ha
    have hi : i < items.length := by
      by_contra hge
      rw [List.getElem?_eq_none (by omega)] at ha
      cases ha
    unfold mapConcurrent
    have hni : i ∉ (poolRunTop items.length limit (fun _ _ => none)
        (fun i => match items.get? i with | some a => f i a | none => default)
        (fun _ => false) sched).inflight := by
      rw [hempty]
      simp
    obtain ⟨r, hr⟩ := hInv.doneSome i (by rw [hns]; exact hi) hni
    rcases hInv.filled i r hr with hval | ⟨_, habs⟩
    · subst hval
      rw [← List.get?_eq_getElem?] at ha
      refine hr.trans ?_
      rw [ha]
    · cases habs

/-- Witness for C5 at a concrete input. -/
theorem c5_witness :
    1 ≤ 2 ∧
    (mapConcurrent [10, 20, 30] 2 (fun _ a => a * 2) (fun _ => 0)).results.length =
      ([10, 20, 30] : List Nat).length ∧
    (mapConcurrent [10, 20, 30] 2 (fun _ a => a * 2) (fun _ => 0)).results[1]? =
      some (some 40) := by
  have h := c5_mapConcurrent_order (β := Nat) [10, 20, 30] 2 (fun _ a => a * 2) (fun _ => 0)
    (by decide)
  exact ⟨by decide, h.1, h.2 1 20 (by decide)⟩

/-- C4: in a fail-fast parallel group (positive concurrency limit, real
worker exit codes never the synthetic -1), every result slot holds either
the full real result of its own task (tasks already in flight run to
completion) or the synthetic skip placeholder; a skipped slot means the
task was never started and some other task's real result with a non-zero
exit code is present; the skip placeholder carries exit code -1 and the
fail-fast error text, distinguishable from a real failure. -/
theorem c4_failfast_skip (tasks : List ParallelTaskItem) (real : Nat → SingleRes)
    (limit : Nat) (sched : Nat → Nat) (hlimit : 1 ≤ limit)
    (hreal : ∀ j, (real j).exitCode ≠ -1) :
    (parallelPool tasks true real limit sched).results.length = tasks.length ∧
    (∀ t : ParallelTaskItem, (skipResult t).exitCode = -1 ∧
      (skipResult t).task = "(skipped)" ∧
      (skipResult t).error = some "Skipped due to fail-fast") ∧
    ∀ i, i < tasks.length →
      (parallelPool tasks true real limit sched).results[i]? = some (some (real i)) ∨
      ((parallelPool tasks true real limit sched).results[i]? =
          some (some (skipResult (tasks.getD i default))) ∧
        i ∉ (parallelPool tasks true real limit sched).startedReal ∧
        ∃ j, j < tasks.length ∧ (real j).exitCode ≠ 0 ∧
          (parallelPool tasks true real limit sched).results[j]? = some (some (real j))) := by
  have honStart : ∀ (i : Nat) (ab : Bool) (b : SingleRes),
      (fun (i : Nat) (ab : Bool) =>
        if ab && true then some (skipResult (tasks.getD i default)) else none) i ab = some b →
      ab = true := by
    intro i ab b h
    dsimp only at h
    split at h
    · rename_i hc
      simpa using hc
    · cases h
  obtain ⟨hInv, hns, hempty⟩ := poolRunTop_facts tasks.length limit
    (fun i ab => if ab && true then some (skipResult (tasks.getD i default)) else none)
    real
    (fun r => decide (r.exitCode ≠ 0) && true) sched hlimit honStart
  unfold parallelPool
  refine ⟨hInv.lenEq, fun t => ⟨rfl, rfl, rfl⟩, ?_⟩
  intro i hi
  have hni : i ∉ (poolRunTop tasks.length limit
      (fun i ab => if ab && true then some (skipResult (tasks.getD i default)) else none)
      real (fun r => decide (r.exitCode ≠ 0) && true) sched).inflight := by
    rw [hempty]; simp
  obtain ⟨r, hr⟩ := hInv.doneSome i (by rw [hns]; exact hi) hni
  rcases hInv.filled i r hr with hval | ⟨hab, hsk⟩
  · subst hval
    exact Or.inl hr
  · have hskip : r = skipResult (tasks.getD i default) := by
      simp only [Bool.and_true, if_pos] at hsk
      exact (Option.some.inj hsk).symm
    subst hskip
    right
    refine ⟨hr, ?_, ?_⟩
    · intro hmem
      rcases hInv.startedMem i hmem with hnone | hreal'
      · rw [hr] at hnone
        cases Option.some.inj hnone
      · rw [hr] at hreal'
        have := Option.some.inj (Option.some.inj hreal')
        have hexit := congrArg SingleRes.exitCode this
        simp [skipResult] at hexit
        exact hreal i hexit.symm
    · obtain ⟨j, hj, hslot, hf⟩ := hInv.abortWitness hab
      refine ⟨j, hj, ?_, hslot⟩
      simpa using hf
  
/-- Witness for C4 at a concrete input: two tasks, concurrency 1, first
task fails, so the second yields the skip placeholder. -/
theorem c4_witness :
    1 ≤ 1 ∧
    (parallelPool [exStepA, exStepA] true
      (fun j => if j = 0 then exFailResult else exOkResult) 1 (fun _ => 0)).results.length =
      ([exStepA, exStepA] : List ParallelTaskItem).length ∧
    (skipResult exStepA).exitCode = -1 := by
  have h := c4_failfast_skip [exStepA, exStepA]
    (fun j => if j = 0 then exFailResult else exOkResult) 1 (fun _ => 0)
    (by decide)
    (by intro j; by_cases hj : j = 0 <;> simp [hj, exFailResult, exOkResult])
  exact ⟨by decide, h.1, (h.2.1 exStepA).1⟩

/-! ## Chain orchestrator lemmas (C1, C6) -/

lemma resolveParallelBehaviorsAux_ok_of_known :
    ∀ (ts : List ParallelTaskItem) (cfgs : List AgentConfig) (sIdx t0 : Nat),
      (∀ t ∈ ts, (findAgent cfgs t.agent).isSome = true) →
      ∃ bs, resolveParallelBehaviorsAux ts cfgs sIdx t0 = .ok bs := by
  intro ts
  induction ts with
  | nil => intro cfgs sIdx t0 _; exact ⟨[], rfl⟩
  | cons t rest ih =>
    intro cfgs sIdx t0 hknown
    have ht := hknown t (by simp)
    obtain ⟨cfg, hcfg⟩ := Option.isSome_iff_exists.mp ht
    obtain ⟨bs', hbs'⟩ := ih cfgs sIdx (t0 + 1) (fun x hx => hknown x (by simp [hx]))
    cases hres : resolveParallelBehaviorsAux (t :: rest) cfgs sIdx t0 with
    | ok bs => exact ⟨bs, rfl⟩
    | error e =>
      simp only [resolveParallelBehaviorsAux, hcfg, hbs'] at hres
      cases hres

lemma resolveParallelBehaviorsAux_error_of_unknown :
    ∀ (ts : List ParallelTaskItem) (cfgs : List AgentConfig) (sIdx t0 : Nat),
      (∃ t ∈ ts, findAgent cfgs t.agent = none) →
      ∃ a, resolveParallelBehaviorsAux ts cfgs sIdx t0 = .error ("Unknown agent: " ++ a) ∧
        findAgent cfgs a = none := by
  intro ts
  induction ts with
  | nil => intro cfgs sIdx t0 h; obtain ⟨t, ht, _⟩ := h; cases ht
  | cons t rest ih =>
    intro cfgs sIdx t0 h
    cases hf : findAgent cfgs t.agent with
    | none =>
      refine ⟨t.agent, ?_, hf⟩
      simp only [resolveParallelBehaviorsAux, hf]
    | some cfg =>
      have hrest : ∃ x ∈ rest, findAgent cfgs x.agent = none := by
        obtain ⟨x, hx, hxn⟩ := h
        rcases List.mem_cons.mp hx with rfl | hx'
        · rw [hf] at hxn; cases hxn
        · exact ⟨x, hx', hxn⟩
      obtain ⟨a, ha, han⟩ := ih cfgs sIdx (t0 + 1) hrest
      refine ⟨a, ?_, han⟩
      simp only [resolveParallelBehaviorsAux, hf, ha]

lemma parallelPool_all_ok (tasks : List ParallelTaskItem) (ff : Bool) (real : Nat → SingleRes)
    (limit : Nat) (sched : Nat → Nat) (hlimit : 1 ≤ limit)
    (hok : ∀ i < tasks.length, (real i).exitCode = 0) :
    (parallelPool tasks ff real limit sched).results =
      (List.range tasks.length).map (fun i => some (real i)) ∧
    (parallelPool tasks ff real limit sched).startedReal.length = tasks.length ∧
    (parallelPool tasks ff real limit sched).aborted = false := by
  have honStart : ∀ (i : Nat) (ab : Bool) (b : SingleRes),
      (fun (i : Nat) (ab : Bool) =>
        if ab && ff then some (skipResult (tasks.getD i default)) else none) i ab = some b →
      ab = true := by
    intro i ab b h
    cases ab
    · simp at h
    · rfl
  obtain ⟨hInv, hns, hempty⟩ := poolRunTop_facts tasks.length limit
    (fun i ab => if ab && ff then some (skipResult (tasks.getD i default)) else none)
    real (fun r => decide (r.exitCode ≠ 0) && ff) sched hlimit honStart
  unfold parallelPool
  have habort : (poolRunTop tasks.length limit
      (fun i ab => if ab && ff then some (skipResult (tasks.getD i default)) else none)
      real (fun r => decide (r.exitCode ≠ 0) && ff) sched).aborted = false := by
    cases hab : (poolRunTop tasks.length limit
        (fun i ab => if ab && ff then some (skipResult (tasks.getD i default)) else none)
        real (fun r => decide (r.exitCode ≠ 0) && ff) sched).aborted
    · rfl
    · obtain ⟨j, hj, _, hf⟩ := hInv.abortWitness hab
      have : (real j).exitCode ≠ 0 := by
        rcases Bool.and_eq_true_iff.mp hf with ⟨hd, _⟩
        exact of_decide_eq_true hd
      exact absurd (hok j hj) this
  refine ⟨?_, hInv.startedLen habort ▸ hns, habort⟩
  apply List.ext_getElem?
  intro i
  by_cases hi : i < tasks.length
  · have hni : i ∉ (poolRunTop tasks.length limit
        (fun i ab => if ab && ff then some (skipResult (tasks.getD i default)) else none)
        real (fun r => decide (r.exitCode ≠ 0) && ff) sched).inflight := by
      rw [hempty]; simp
    obtain ⟨r, hr⟩ := hInv.doneSome i (by rw [hns]; exact hi) hni
    rcases hInv.filled i r hr with hval | ⟨hab, _⟩
    · subst hval
      rw [hr]
      rw [List.getElem?_map, List.getElem?_range hi]
      rfl
    · rw [habort] at hab
      cases hab
  · rw [List.getElem?_eq_none (by rw [hInv.lenEq]; omega),
      List.getElem?_eq_none (by simp; omega)]

lemma executeChainLoop_seq_step (agents : List AgentConfig) (oracle : Nat → SingleRes)
    (sched : Nat → Nat → Nat) (ot cd : String) (sq : SequentialStep) (rest : List ChainStep)
    (tmpls : List Tmpl) (idx : Nat) (st : ChainState) (cfg : AgentConfig)
    (hcfg : findAgent agents sq.agent = some cfg)
    (hexit : (oracle st.globalTaskIndex).exitCode = 0) :
    ∃ st' : ChainState,
      executeChainLoop agents oracle sched ot cd (ChainStep.seq sq :: rest) tmpls idx st =
        executeChainLoop agents oracle sched ot cd rest tmpls.tail (idx + 1) st' ∧
      st'.globalTaskIndex = st.globalTaskIndex + 1 ∧
      st'.results.length = st.results.length + 1 ∧
      st'.spawned.length = st.spawned.length + 1 ∧
      st'.dirRemoved = st.dirRemoved := by
  have hcond : ¬((oracle st.globalTaskIndex).exitCode ≠ 0) := by
    rw [hexit]; exact fun h => h rfl
  simp only [executeChainLoop, hcfg, if_neg hcond]
  exact ⟨_, rfl, rfl, by simp, by simp, rfl⟩

lemma filter_failures_nil (l : List SingleRes) (h : ∀ x ∈ l, x.exitCode = 0) :
    l.enum.filter (fun ri => decide (ri.2.exitCode ≠ 0 ∧ ri.2.exitCode ≠ -1)) = [] := by
  rw [List.filter_eq_nil_iff]
  intro a ha
  have hmem : a.2 ∈ l := by
    have hsnd := List.enum_map_snd l
    rw [← hsnd]
    exact List.mem_map_of_mem Prod.snd ha
  simp [h a.2 hmem]

lemma executeChainLoop_par_step (agents : List AgentConfig) (oracle : Nat → SingleRes)
    (sched : Nat → Nat → Nat) (ot cd : String) (tasks : List ParallelTaskItem)
    (cOpt : Option Nat) (ffOpt : Option Bool) (rest : List ChainStep)
    (tmpls : List Tmpl) (idx : Nat) (st : ChainState)
    (hknown : ∀ t ∈ tasks, (findAgent agents t.agent).isSome = true)
    (hok : ∀ i < tasks.length, (oracle (st.globalTaskIndex + i)).exitCode = 0)
    (hlimit : 1 ≤ cOpt.getD MAX_CONCURRENCY) :
    ∃ st' : ChainState,
      executeChainLoop agents oracle sched ot cd (ChainStep.par tasks cOpt ffOpt :: rest)
          tmpls idx st =
        executeChainLoop agents oracle sched ot cd rest tmpls.tail (idx + 1) st' ∧
      st'.globalTaskIndex = st.globalTaskIndex + tasks.length ∧
      st'.results.length = st.results.length + tasks.length ∧
      st'.spawned.length = st.spawned.length + tasks.length ∧
      st'.dirRemoved = st.dirRemoved := by
  obtain ⟨bs, hbs⟩ := resolveParallelBehaviorsAux_ok_of_known tasks agents idx 0 hknown
  have hbs' : resolveParallelBehaviors tasks agents idx = .ok bs := hbs
  obtain ⟨hres, hstarted, habort⟩ := parallelPool_all_ok tasks (ffOpt.getD false)
    (fun i => oracle (st.globalTaskIndex + i)) (cOpt.getD MAX_CONCURRENCY) (sched idx) hlimit
    (fun i hi => hok i hi)
  have hprfull : (parallelPool tasks (ffOpt.getD false)
      (fun i => oracle (st.globalTaskIndex + i)) (cOpt.getD MAX_CONCURRENCY)
      (sched idx)).results.map (fun o => o.getD default) =
      (List.range tasks.length).map (fun i => oracle (st.globalTaskIndex + i)) := by
    rw [hres, List.map_map]
    rfl
  have hfilter := filter_failures_nil
    ((List.range tasks.length).map (fun i => oracle (st.globalTaskIndex + i)))
    (by
      intro x hx
      obtain ⟨i, hi, rfl⟩ := List.mem_map.mp hx
      exact hok i (by simpa using hi))
  simp only [executeChainLoop, hbs', hprfull, hfilter]
  simp only [List.length_nil, gt_iff_lt, Nat.lt_irrefl, if_false]
  refine ⟨_, rfl, rfl, by simp, ?_, rfl⟩
  simp [List.length_append, hstarted]

lemma leafCount_nil : leafCount [] = 0 := rfl

lemma leafCount_cons (s : ChainStep) (l : List ChainStep) :
    leafCount (s :: l) = leafCount [s] + leafCount l := by
  simp [leafCount]

lemma leafCount_seq (sq : SequentialStep) : leafCount [ChainStep.seq sq] = 1 := rfl

lemma leafCount_par (tasks : List ParallelTaskItem) (c : Option Nat) (ff : Option Bool) :
    leafCount [ChainStep.par tasks c ff] = tasks.length := by
  simp [leafCount]

lemma executeChainLoop_prefix (agents : List AgentConfig) (oracle : Nat → SingleRes)
    (sched : Nat → Nat → Nat) (ot cd : String) :
    ∀ (k : Nat) (steps : List ChainStep) (tmpls : List Tmpl) (idx : Nat) (st : ChainState),
      k ≤ steps.length →
      (∀ j, j < k → stepOk agents oracle (st.globalTaskIndex + leafCount (steps.take j))
        (steps.getD j default)) →
      ∃ st' : ChainState,
        executeChainLoop agents oracle sched ot cd steps tmpls idx st =
          executeChainLoop agents oracle sched ot cd (steps.drop k) (tmpls.drop k) (idx + k) st' ∧
        st'.globalTaskIndex = st.globalTaskIndex + leafCount (steps.take k) ∧
        st'.results.length = st.results.length + leafCount (steps.take k) ∧
        st'.spawned.length = st.spawned.length + leafCount (steps.take k) ∧
        st'.dirRemoved = st.dirRemoved := by
  intro k
  induction k with
  | zero =>
    intro steps tmpls idx st _ _
    exact ⟨st, by rw [List.drop_zero, List.drop_zero, Nat.add_zero],
      by simp [leafCount], by simp [leafCount], by simp [leafCount], rfl⟩
  | succ m ih =>
    intro steps tmpls idx st hk hok
    cases steps with
    | nil => simp at hk
    | cons s rest =>
      have h0 := hok 0 (Nat.succ_pos m)
      simp only [List.take_zero, leafCount_nil, Nat.add_zero, List.getD_cons_zero] at h0
      have htrans : ∀ (st₁ : ChainState),
          st₁.globalTaskIndex = st.globalTaskIndex + leafCount [s] →
          ∀ j, j < m → stepOk agents oracle (st₁.globalTaskIndex + leafCount (rest.take j))
            (rest.getD j default) := by
        intro st₁ hg j hj
        have h := hok (j + 1) (by omega)
        have harith : st.globalTaskIndex + leafCount ((s :: rest).take (j + 1)) =
            st₁.globalTaskIndex + leafCount (rest.take j) := by
          rw [List.take_succ_cons, leafCount_cons, hg]
          omega
        rw [harith] at h
        simpa [List.getD_cons_succ] using h
      cases s with
      | seq sq =>
        simp only [stepOk] at h0
        obtain ⟨hsome, hexit⟩ := h0
        obtain ⟨cfg, hcfg⟩ := Option.isSome_iff_exists.mp hsome
        obtain ⟨st₁, heq, hg, hr, hs, hd⟩ :=
          executeChainLoop_seq_step agents oracle sched ot cd sq rest tmpls idx st cfg hcfg hexit
        obtain ⟨st₂, heq₂, hg₂, hr₂, hs₂, hd₂⟩ := ih rest tmpls.tail (idx + 1) st₁
          (by simpa using hk) (htrans st₁ (by rw [hg]; rfl))
        refine ⟨st₂, ?_, ?_, ?_, ?_, ?_⟩
        · rw [heq, heq₂, List.drop_succ_cons]
          have hdt : tmpls.tail.drop m = tmpls.drop (m + 1) := by
            rw [← List.drop_one, List.drop_drop]
            congr 1
            omega
          rw [hdt]
          congr 1
          omega
        · rw [hg₂, hg, List.take_succ_cons, leafCount_cons, leafCount_seq]
          omega
        · rw [hr₂, hr, List.take_succ_cons, leafCount_cons, leafCount_seq]
          omega
        · rw [hs₂, hs, List.take_succ_cons, leafCount_cons, leafCount_seq]
          omega
        · rw [hd₂, hd]
      | par tasks cOpt ffOpt =>
        simp only [stepOk] at h0
        obtain ⟨hknown, hexits, hlimit⟩ := h0
        obtain ⟨st₁, heq, hg, hr, hs, hd⟩ :=
          executeChainLoop_par_step agents oracle sched ot cd tasks cOpt ffOpt rest tmpls idx st
            hknown hexits hlimit
        obtain ⟨st₂, heq₂, hg₂, hr₂, hs₂, hd₂⟩ := ih rest tmpls.tail (idx + 1) st₁
          (by simpa using hk)
          (htrans st₁ (by rw [hg, leafCount_par]))
        refine ⟨st₂, ?_, ?_, ?_, ?_, ?_⟩
        · rw [heq, heq₂, List.drop_succ_cons]
          have hdt : tmpls.tail.drop m = tmpls.drop (m + 1) := by
            rw [← List.drop_one, List.drop_drop]
            congr 1
            omega
          rw [hdt]
          congr 1
          omega
        · rw [hg₂, hg, List.take_succ_cons, leafCount_cons, leafCount_par]
          omega
        · rw [hr₂, hr, List.take_succ_cons, leafCount_cons, leafCount_par]
          omega
        · rw [hs₂, hs, List.take_succ_cons, leafCount_cons, leafCount_par]
          omega
        · rw [hd₂, hd]

/-- C6: when a sequential step fails (non-zero exit) after a succeeding
prefix, the chain halts: the chain directory is not removed, the returned
value is an error reporting the failing step's index, and it carries task
results only for the leaf tasks that ran — the prefix plus the failing
step, none after it. -/
theorem c6_sequential_failure_halts (agents : List AgentConfig) (oracle : Nat → SingleRes)
    (sched : Nat → Nat → Nat) (cd : String) (steps : List ChainStep) (k : Nat)
    (sq : SequentialStep) (cfg : AgentConfig)
    (hk : k < steps.length)
    (hstep : steps.getD k default = ChainStep.seq sq)
    (hpre : ∀ j, j < k → stepOk agents oracle (leafCount (steps.take j)) (steps.getD j default))
    (hcfg : findAgent agents sq.agent = some cfg)
    (hfail : (oracle (leafCount (steps.take k))).exitCode ≠ 0) :
    (executeChain agents oracle sched cd steps).dirRemoved = false ∧
    ∃ r : ChainRes,
      (executeChain agents oracle sched cd steps).outcome = .ok r ∧
      r.isError = true ∧
      r.currentStepIndex = some k ∧
      r.results.length = leafCount (steps.take k) + 1 ∧
      r.results.getLast? = some (oracle (leafCount (steps.take k))) := by
  unfold executeChain
  obtain ⟨st', heq, hg, hr, hs, hd⟩ := executeChainLoop_prefix agents oracle sched
    (match steps.head? with
      | some (.par tasks _ _) => (tasks.head?.bind (·.task)).getD ""
      | some (.seq s) => s.task.getD ""
      | none => "") cd k steps (resolveChainTemplatesV2 steps) 0 ChainState.init
    (Nat.le_of_lt hk)
    (by
      intro j hj
      have := hpre j hj
      simpa [ChainState.init] using this)
  rw [heq]
  have hdrop : steps.drop k = ChainStep.seq sq :: steps.drop (k + 1) := by
    rw [List.drop_eq_getElem_cons hk]
    congr 1
    rw [← List.getD_eq_getElem steps default hk]
    exact hstep
  rw [hdrop]
  have hg' : st'.globalTaskIndex = leafCount (steps.take k) := by
    simpa [ChainState.init] using hg
  have hcond : (oracle st'.globalTaskIndex).exitCode ≠ 0 := by
    rw [hg']; exact hfail
  simp only [executeChainLoop, hcfg, if_pos hcond]
  have hd' : st'.dirRemoved = false := by simpa [ChainState.init] using hd
  refine ⟨hd', ⟨_, rfl, rfl, by simp, ?_, ?_⟩⟩
  · simp only [List.length_append, List.length_singleton]
    have hr' : st'.results.length = leafCount (steps.take k) := by
      simpa [ChainState.init] using hr
    omega
  · rw [hg']
    exact List.getLast?_concat _

set_option maxRecDepth 10000 in
/-- C6 witness: a one-step chain whose sequential step fails with exit 2
instantiates the halt theorem; the chain directory is kept. -/
theorem c6_witness :
    (0 : Nat) < [ChainStep.seq exStepA].length ∧
    (executeChain [exAgentA] (fun _ => exFailResult) (fun _ _ => 0) "/cd"
      [ChainStep.seq exStepA]).dirRemoved = false :=
  ⟨by decide,
    (c6_sequential_failure_halts [exAgentA] (fun _ => exFailResult) (fun _ _ => 0) "/cd"
      [ChainStep.seq exStepA] 0 exStepA exAgentA (by decide) rfl
      (fun j hj => absurd hj (by omega)) rfl (by decide)).1⟩

set_option maxRecDepth 10000 in
/-- C1 counterexample: in the chain [step on agent a, step on unknown agent
nope], the first step's worker IS spawned before the unknown agent is
reported, refuting that the configuration is validated before any worker
process is spawned and that no earlier step executes. -/
theorem c1_counterexample :
    (executeChain [exAgentA] (fun _ => exOkResult) (fun _ _ => 0) "/cd"
      [ChainStep.seq exStepA, ChainStep.seq exStepUnknown]).spawned ≠ [] ∧
    (executeChain [exAgentA] (fun _ => exOkResult) (fun _ _ => 0) "/cd"
      [ChainStep.seq exStepA, ChainStep.seq exStepUnknown]).outcome =
      .ok { contentText := "Unknown agent: nope", isError := true
            results := [], currentStepIndex := none } := by
  constructor
  · decide
  · decide

/-- C1 (amended): validation of chain agents is lazy, per step. If every
step before index k succeeds and step k names an unknown agent, the
orchestrator surfaces the error exactly when it reaches step k: by then one
worker per leaf task of the earlier steps has been spawned (so side effects
of earlier steps do occur), but no worker of step k or of any later step
ever starts, and the run ends with an Unknown agent error naming an agent
absent from the registry (as a thrown error for a parallel step, as an
error result with empty results for a sequential step — on that sequential
path the chain directory is also removed). -/
theorem c1_unknown_agent_lazy (agents : List AgentConfig) (oracle : Nat → SingleRes)
    (sched : Nat → Nat → Nat) (cd : String) (steps : List ChainStep) (k : Nat)
    (hk : k < steps.length)
    (hpre : ∀ j, j < k → stepOk agents oracle (leafCount (steps.take j)) (steps.getD j default))
    (hbad : stepHasUnknown agents (steps.getD k default)) :
    (executeChain agents oracle sched cd steps).spawned.length = leafCount (steps.take k) ∧
    ((∃ a, (executeChain agents oracle sched cd steps).outcome =
        .error ("Unknown agent: " ++ a) ∧ findAgent agents a = none) ∨
     (∃ a r, (executeChain agents oracle sched cd steps).outcome = .ok r ∧
        r.isError = true ∧ r.contentText = "Unknown agent: " ++ a ∧
        r.results = [] ∧ findAgent agents a = none ∧
        (executeChain agents oracle sched cd steps).dirRemoved = true)) := by
  unfold executeChain
  obtain ⟨st', heq, hg, hr, hs, hd⟩ := executeChainLoop_prefix agents oracle sched
    (match steps.head? with
      | some (.par tasks _ _) => (tasks.head?.bind (·.task)).getD ""
      | some (.seq s) => s.task.getD ""
      | none => "") cd k steps (resolveChainTemplatesV2 steps) 0 ChainState.init
    (Nat.le_of_lt hk)
    (by
      intro j hj
      have := hpre j hj
      simpa [ChainState.init] using this)
  rw [heq]
  have hdrop : steps.drop k = steps.getD k default :: steps.drop (k + 1) := by
    rw [List.drop_eq_getElem_cons hk]
    congr 1
    rw [← List.getD_eq_getElem steps default hk]
  rw [hdrop]
  have hs' : st'.spawned.length = leafCount (steps.take k) := by
    simpa [ChainState.init] using hs
  cases hgd : steps.getD k default with
  | seq s =>
    rw [hgd] at hbad
    have hnone : findAgent agents s.agent = none := hbad
    simp only [executeChainLoop, hnone]
    exact ⟨hs', .inr ⟨s.agent, _, rfl, rfl, rfl, rfl, hnone, trivial⟩⟩
  | par tasks c f =>
    rw [hgd] at hbad
    obtain ⟨a, herr, han⟩ :=
      resolveParallelBehaviorsAux_error_of_unknown tasks agents (0 + k) 0 hbad
    have herr' : resolveParallelBehaviors tasks agents (0 + k) =
        .error ("Unknown agent: " ++ a) := herr
    simp only [executeChainLoop, herr']
    exact ⟨hs', .inl ⟨a, rfl, han⟩⟩

set_option maxRecDepth 10000 in
/-- C1 witness: instantiating the lazy-validation theorem at step index 1 of
the chain [step on agent a, step on unknown agent nope]: exactly one worker
(the first step's) has been spawned when the unknown agent is reported. -/
theorem c1_witness :
    (1 : Nat) < [ChainStep.seq exStepA, ChainStep.seq exStepUnknown].length ∧
    stepHasUnknown [exAgentA]
      ([ChainStep.seq exStepA, ChainStep.seq exStepUnknown].getD 1 default) ∧
    (executeChain [exAgentA] (fun _ => exOkResult) (fun _ _ => 0) "/cd"
      [ChainStep.seq exStepA, ChainStep.seq exStepUnknown]).spawned.length =
      leafCount ([ChainStep.seq exStepA, ChainStep.seq exStepUnknown].take 1) :=
  ⟨by decide,
    (by exact rfl : findAgent [exAgentA] exStepUnknown.agent = none),
    (c1_unknown_agent_lazy [exAgentA] (fun _ => exOkResult) (fun _ _ => 0) "/cd"
      [ChainStep.seq exStepA, ChainStep.seq exStepUnknown] 1 (by decide)
      (by
        intro j hj
        have hj0 : j = 0 := by omega
        subst hj0
        exact ⟨by decide, by decide⟩)
      (by exact rfl : findAgent [exAgentA] exStepUnknown.agent = none)).1⟩
